import Mathlib

/-!
# vince: RFB client engine, candidate generators and worker loop

A shallow embedding of `rfb/client.go`, `rfb/types.go`, `util/binary_helpers.go`,
`pool/pool.go`, `raw_iter.go`, `wordlist_iter.go` and of the mode switch, the producer
loop and the worker loop of `main.go`.

Conventions of the embedding:

* a Go `byte` is a `Fin 256`; a Go `string` and a Go `[]byte` are lists of bytes
  (Go strings are arbitrary byte sequences, `string(buf[4:11])` need not be text);
* a Go `error` is modelled by its message (the value of `err.Error()`);
* `net.Conn` is an interface; it is modelled by a scripted connection: the
  outcomes of the successive `Read` calls, the outcomes of the successive
  `Write` calls, the log of the payloads handed to `Write`, and a closed flag;
* a panic (a method called on a client whose `Conn` is nil, an index out of range, a
  send on a closed channel) is the `none` of the outer `Option` of a function;
* the workers run while `main` goes on: whether `main` has closed `newFailedMsgChan`
  when a worker sends on it is an input of the worker loop;
* the value of the flag `-chars` is a Go string, the bytes of the command-line
  argument, which need not be valid UTF-8;
* the `PacketDebug` hex dumps are log output only and are left out.
-/

namespace Vince

/-! ## Bytes, strings, errors -/

abbrev Byte := Fin 256

abbrev GoString := List Byte

abbrev Error := List Byte

/-- The UTF-8 bytes of a source string literal. -/
def str (s : String) : GoString :=
  (s.toList.flatMap String.utf8EncodeChar).map (fun b => ⟨b.toNat % 256, Nat.mod_lt _ (by decide)⟩)

/-- The bytes `fmt` prints for `%d` applied to a non-negative integer. -/
def fmtD (n : Nat) : GoString :=
  (Nat.toDigits 10 n).map (fun c => ⟨c.toNat % 256, Nat.mod_lt _ (by decide)⟩)

/-- The constant `make([]byte, n)`: n zero bytes. -/
def makeBytes (n : Nat) : List Byte := List.replicate n 0

/-- The builtin `copy(dst, src)` on a destination of length `dst.length`:
the first `min (len dst) (len src)` bytes of `dst` are overwritten. -/
def copyInto (dst src : List Byte) : List Byte :=
  src.take dst.length ++ dst.drop (src.take dst.length).length

/-! ## rfb/types.go -/

def RfbProtoVer_3_3 : GoString := str "003.003"
def RfbProtoVer_3_7 : GoString := str "003.007"
def RfbProtoVer_3_8 : GoString := str "003.008"
def RfbProtoVer_3_889 : GoString := str "003.889"

abbrev VncAuth := Byte

def VncAuthInvalid : VncAuth := 0
def VncAuthNone : VncAuth := 1
def VncAuthBasic : VncAuth := 2

structure SecurityResult where
  Success : Bool
  Reason : GoString
deriving DecidableEq, Repr

/-! ## math/bits -/

/-- The function `bits.Reverse8`: the byte with its bits in reversed order. -/
def Reverse8 (x : Byte) : Byte :=
  ⟨(x.val / 128 % 2) + 2 * (x.val / 64 % 2) + 4 * (x.val / 32 % 2) + 8 * (x.val / 16 % 2)
    + 16 * (x.val / 8 % 2) + 32 * (x.val / 4 % 2) + 64 * (x.val / 2 % 2) + 128 * (x.val % 2),
   by omega⟩

/-! ## DES key derivation of `SubmitAuthBasic` (client.go 378-386) -/

/-- The loop `for i := 0; i < len(password); i++ { pwBytes[i] = bits.Reverse8(password[i]) }`,
started at index `i`. -/
def keyLoop (password : GoString) : Nat → Nat → List Byte → List Byte
  | 0, _, pwBytes => pwBytes
  | fuel + 1, i, pwBytes =>
    if i < password.length then
      keyLoop password fuel (i + 1) (pwBytes.set i (Reverse8 (password.getD i 0)))
    else pwBytes

/-- The 8-byte DES key `pwBytes` that `SubmitAuthBasic` hands to `des.NewCipher`. -/
def desKey (password : GoString) : List Byte :=
  let password := if password.length > 8 then password.take 8 else password
  keyLoop password (password.length + 1) 0 (makeBytes 8)

/-! ## net.Conn, scripted -/

/-- The outcome the transport holds ready for a `Read` call: bytes that have
arrived, or a read error. -/
inductive ReadEvent where
  | data (bs : List Byte)
  | fail (e : Error)
deriving DecidableEq, Repr

/-- A connection. `incoming` scripts the successive `Read` calls, `writeErrs` the
successive `Write` calls (`none`, or an exhausted script: the write succeeds),
`sent` logs the payload of every `Write` call in order. -/
structure Conn where
  incoming : List ReadEvent
  writeErrs : List (Option Error)
  sent : List (List Byte)
  closed : Bool
deriving DecidableEq, Repr

/-- The call `conn.Read(buf)`: at most `len(buf)` of the pending bytes are copied to
the front of `buf`; bytes that did not fit stay pending (stream semantics). With
nothing scripted the peer has closed the stream and the read fails with `EOF`.
Returns the connection, the buffer after the call, `n` and `err`. -/
def Conn.Read (c : Conn) (buf : List Byte) : Conn × List Byte × Nat × Option Error :=
  match c.incoming with
  | [] => (c, buf, 0, some (str "EOF"))
  | .fail e :: rest => ({ c with incoming := rest }, buf, 0, some e)
  | .data bs :: rest =>
    let left := bs.drop buf.length
    ({ c with incoming := if left.isEmpty then rest else .data left :: rest },
      copyInto buf bs, min bs.length buf.length, none)

/-- The call `conn.Write(b)`. Returns the connection, `n` and `err`. -/
def Conn.Write (c : Conn) (b : List Byte) : Conn × Nat × Option Error :=
  match c.writeErrs with
  | [] => ({ c with sent := c.sent ++ [b] }, b.length, none)
  | none :: rest => ({ c with writeErrs := rest, sent := c.sent ++ [b] }, b.length, none)
  | some e :: rest => ({ c with writeErrs := rest, sent := c.sent ++ [b] }, 0, some e)

/-- The call `conn.Close()`. -/
def Conn.Close (c : Conn) : Conn := { c with closed := true }

/-! ## encoding/binary over a bytes.Reader -/

/-- A `bytes.Reader`: the part of the underlying slice that is still unread. -/
abbrev Reader := List Byte

inductive ByteOrder where
  | BigEndian
  | LittleEndian
deriving DecidableEq, Repr

/-- The methods `binary.BigEndian.Uint32` and `binary.LittleEndian.Uint32` on the
first four bytes of `b`. -/
def ByteOrder.Uint32 (order : ByteOrder) (b : List Byte) : Nat :=
  match order with
  | .BigEndian =>
    (b.getD 3 0).val + (b.getD 2 0).val * 2 ^ 8 + (b.getD 1 0).val * 2 ^ 16
      + (b.getD 0 0).val * 2 ^ 24
  | .LittleEndian =>
    (b.getD 0 0).val + (b.getD 1 0).val * 2 ^ 8 + (b.getD 2 0).val * 2 ^ 16
      + (b.getD 3 0).val * 2 ^ 24

/-- The call `binary.Read(reader, order, &v)` for a `uint32`: `io.ReadFull` of four
bytes. No byte left is `EOF`, one to three bytes left is `unexpected EOF` (and
they are consumed). -/
def binaryReadU32 (reader : Reader) (order : ByteOrder) : Reader × Except Error Nat :=
  if 4 ≤ reader.length then (reader.drop 4, .ok (order.Uint32 (reader.take 4)))
  else if reader.length = 0 then (reader, .error (str "EOF"))
  else ([], .error (str "unexpected EOF"))

/-- The call `binary.Read(reader, order, &v)` for a value of kind `uint8`. -/
def binaryReadU8 (reader : Reader) : Reader × Except Error Byte :=
  match reader with
  | [] => ([], .error (str "EOF"))
  | b :: rest => (rest, .ok b)

/-! ## util/binary_helpers.go -/

/-- The function `util.ReadU32String` on a `bytes.Reader` (every caller passes one).
`stream.Read(str)` copies what is left, up to `len(str)` bytes, and fails with
`EOF` only when nothing at all is left. Returns the reader, the string and `err`. -/
def ReadU32String (stream : Reader) (order : ByteOrder) : Reader × GoString × Option Error :=
  match binaryReadU32 stream order with
  | (stream, .error err) => (stream, [], some err)
  | (stream, .ok len) =>
    let s := makeBytes len
    if stream.length = 0 then (stream, s, some (str "EOF"))
    else (stream.drop len, copyInto s stream, none)

/-! ## rfb/client.go -/

/-- The fields of `rfb.Client` that the engine and the worker use. -/
structure Client where
  DestAddr : GoString
  ProxyAddr : GoString
  Conn : Option Conn
  ProtoVer : GoString
  ServerProtoVer : GoString
  SecurityTypes : List VncAuth
  SecurityResult : SecurityResult
deriving DecidableEq, Repr

/-- The method `client.read(buf)`; `none` is the panic on a nil `Conn`. -/
def Client.read (client : Client) (buf : List Byte) :
    Option (Client × List Byte × Nat × Option Error) :=
  match client.Conn with
  | none => none
  | some conn =>
    match conn.Read buf with
    | (conn, buf, n, err) => some ({ client with Conn := some conn }, buf, n, err)

/-- The method `client.write(buf)`; `none` is the panic on a nil `Conn`. -/
def Client.write (client : Client) (buf : List Byte) : Option (Client × Nat × Option Error) :=
  match client.Conn with
  | none => none
  | some conn =>
    match conn.Write buf with
    | (conn, n, err) => some ({ client with Conn := some conn }, n, err)

/-- The method `Client.Connect`. Dialling (direct, SOCKS or WebSocket) is external:
`dial` is what the dialer returned. -/
def Client.Connect (client : Client) (dial : Except Error Vince.Conn) : Client × Option Error :=
  if client.DestAddr = [] then (client, some (str "client.DestAddr not specified"))
  else
    match dial with
    | .error err => (client, some err)
    | .ok conn => ({ client with Conn := some conn }, none)

/-- The method `Client.Kill`. -/
def Client.Kill (client : Client) : Client :=
  match client.Conn with
  | some conn => { client with Conn := some conn.Close }
  | none => client

/-- The `switch client.ServerProtoVer` of `DoHandshake` (lines 196-209). -/
def negotiate (serverProtoVer : GoString) : GoString :=
  if serverProtoVer = RfbProtoVer_3_3 then RfbProtoVer_3_3
  else if serverProtoVer = RfbProtoVer_3_7 then RfbProtoVer_3_7
  else if serverProtoVer = RfbProtoVer_3_8 then RfbProtoVer_3_8
  else if serverProtoVer = RfbProtoVer_3_889 then RfbProtoVer_3_889
  else RfbProtoVer_3_3

/-- The 3.3 branch of `DoHandshake` (lines 218-245). -/
def securityHandshake33 (client : Client) : Option (Client × Option Error) :=
  match client.read (makeBytes 512) with
  | none => none
  | some (client, _, _, some err) =>
    some (client, some (str "SecurityHandshakeOptions: " ++ err))
  | some (client, buf, _, none) =>
    match binaryReadU32 buf .BigEndian with
    | (_, .error err) =>
      some (client, some (str "SecurityHandshakeOptions: packet too small (" ++ err ++ str ")"))
    | (reader, .ok secType) =>
      if secType > 255 then
        some (client, some (str "SecurityHandshakeOptions: security type is too large (expected <=255, got "
          ++ fmtD secType ++ str ")"))
      else if secType = 0 then
        let reasonMsg :=
          match ReadU32String reader .BigEndian with
          | (_, _, some _) => str "<failed to get error reason from server>"
          | (_, reasonMsg, none) => reasonMsg
        some (client, some (str "SecurityHandshakeOptions: no security type returned: " ++ reasonMsg))
      else
        some ({ client with SecurityTypes := [⟨secType % 256, Nat.mod_lt _ (by decide)⟩] }, none)

/-- The loop of lines 276-282 with `k` iterations to go, at index `i`. -/
def secTypesLoop : Nat → Nat → Reader → List VncAuth → Reader × Except Error (List VncAuth)
  | 0, _, reader, secTypesList => (reader, .ok secTypesList)
  | k + 1, i, reader, secTypesList =>
    match binaryReadU8 reader with
    | (reader, .error err) => (reader, .error err)
    | (reader, .ok v) => secTypesLoop k (i + 1) reader (secTypesList.set i v)

/-- The branch of `DoHandshake` for the other versions (lines 246-285). -/
def securityHandshake38 (client : Client) : Option (Client × Option Error) :=
  match client.read (makeBytes 512) with
  | none => none
  | some (client, _, _, some err) =>
    some (client, some (str "SecurityHandshakeOptions: " ++ err))
  | some (client, buf, _, none) =>
    match binaryReadU8 buf with
    | (_, .error err) =>
      some (client, some (str "SecurityHandshakeOptions: packet too small: " ++ err))
    | (reader, .ok numSecTypes) =>
      if numSecTypes = 0 then
        let reasonMsg :=
          match ReadU32String reader .BigEndian with
          | (_, _, some _) => str "<failed to get error reason from server>"
          | (_, reasonMsg, none) => reasonMsg
        some (client, some (str "SecurityHandshakeOptions: no security types returned: " ++ reasonMsg))
      else
        match secTypesLoop numSecTypes.val 0 reader (makeBytes numSecTypes.val) with
        | (_, .error err) =>
          some (client, some (str "SecurityHandshakeOptions: server reported (" ++ fmtD numSecTypes.val
            ++ str ") security types, but packet is shorter than expected: " ++ err))
        | (_, .ok secTypesList) => some ({ client with SecurityTypes := secTypesList }, none)

/-- The method `Client.DoHandshake`. Returns the client after the call and the
returned `error`; `none` is a panic. -/
def DoHandshake (client : Client) : Option (Client × Option Error) :=
  match client.read (makeBytes 12) with
  | none => none
  | some (client, _, _, some err) => some (client, some (str "InitServerBanner: " ++ err))
  | some (client, buf, n, none) =>
    if n ≠ 12 then
      some (client, some (str "InitServerBanner: expected exactly 12 bytes, got (" ++ fmtD n ++ str ")"))
    else if buf.take 4 ≠ str "RFB " then
      some (client, some (str "InitServerBanner: invalid RFB banner header (\"" ++ buf.take 4
        ++ str "\")"))
    else
      let client := { client with ServerProtoVer := (buf.drop 4).take 7 }
      let client := { client with ProtoVer := negotiate client.ServerProtoVer }
      match client.write (str "RFB " ++ client.ProtoVer ++ str "\n") with
      | none => none
      | some (client, _, some err) => some (client, some (str "ProtocolVersionResponse: " ++ err))
      | some (client, _, none) =>
        if client.ProtoVer = RfbProtoVer_3_3 then securityHandshake33 client
        else securityHandshake38 client

/-- The method `Client.readSecurityResult`. -/
def readSecurityResult (client : Client) : Option (Client × Option Error) :=
  match client.read (makeBytes 512) with
  | none => none
  | some (client, _, _, some err) => some (client, some (str "SecurityResult: " ++ err))
  | some (client, buf, _, none) =>
    let order :=
      if client.ServerProtoVer = RfbProtoVer_3_889 then ByteOrder.LittleEndian
      else ByteOrder.BigEndian
    match binaryReadU32 buf order with
    | (_, .error err) => some (client, some (str "SecurityResult: packet too small: " ++ err))
    | (reader, .ok statusCode) =>
      if statusCode = 0 then
        some ({ client with SecurityResult := { client.SecurityResult with Success := true } }, none)
      else if statusCode = 1 then
        match ReadU32String reader .BigEndian with
        | (_, reason, _) =>
          some ({ client with SecurityResult := { client.SecurityResult with Reason := reason } },
            none)
      else
        some (client, some (str "SecurityResult: invalid status code: expected [0, 1], got ("
          ++ fmtD statusCode ++ str ")"))

/-- The block cipher of `crypto/des`, which is not part of this repository:
`encrypt key src` is what `cipher.Encrypt(dst, src)` stores in the 8 bytes of `dst`
for the cipher made from `key`. -/
structure BlockCipher where
  encrypt : List Byte → List Byte → List Byte
  encrypt_length : ∀ key src, (encrypt key src).length = 8

/-- The block of `SubmitAuthBasic` after the selector (lines 367-409): the DES
challenge, the response and the security result. -/
def authChallenge (des : BlockCipher) (client : Client) (password : GoString) :
    Option (Client × Option Error) :=
  match client.read (makeBytes 16) with
  | none => none
  | some (client, _, _, some err) => some (client, some (str "BasicAuthChallenge: " ++ err))
  | some (client, desChallengeBuf, n, none) =>
    if n < 16 then some (client, some (str "BasicAuthChallenge: packet too small"))
    else if desChallengeBuf.take 16 = [0, 0, 0, 0, 0, 0, 0, 0, 0, 0, 0, 0, 0, 0, 0, 0] then
      some (client,
        some (str "BasicAuthChallenge: server is likely a honeypot, DES challenge is all 0s"))
    else
      let pwBytes := desKey password
      if pwBytes.length ≠ 8 then
        some (client, some (str
          "BasicAuthChallengeResponse: failed to create DES cipher from password \""
          ++ pwBytes ++ str "\": crypto/des: invalid key size " ++ fmtD pwBytes.length))
      else
        let desResult1 := des.encrypt pwBytes (desChallengeBuf.take 8)
        let desResult2 := des.encrypt pwBytes ((desChallengeBuf.drop 8).take 8)
        let desResponseBuf := desResult1 ++ desResult2
        match client.write desResponseBuf with
        | none => none
        | some (client, _, some err) =>
          some (client, some (str "BasicAuthChallengeResponse: " ++ err))
        | some (client, _, none) => readSecurityResult client

/-- The method `Client.SubmitAuthBasic`: the selector byte (lines 359-365), then the
challenge block. -/
def SubmitAuthBasic (des : BlockCipher) (client : Client) (password : GoString) :
    Option (Client × Option Error) :=
  if client.ProtoVer ≠ RfbProtoVer_3_3 then
    match client.write [VncAuthBasic] with
    | none => none
    | some (client, _, some err) => some (client, some (str "SecurityHandshakeResponse: " ++ err))
    | some (client, _, none) => authChallenge des client password
  else authChallenge des client password

/-! ## pool/pool.go -/

structure Pool where
  Proxies : List GoString
  index : Nat
deriving DecidableEq, Repr

/-- The method `Pool.Get` (the mutex is held for the whole call); `none` is the
index-out-of-range panic of `pool.Proxies[pool.index]`. -/
def Pool.Get (pool : Pool) : Option (Pool × GoString × Option Error) :=
  let poolLen := pool.Proxies.length
  if poolLen = 0 then some (pool, [], some (str "no proxies available in the pool"))
  else if pool.index < poolLen then
    let proxy := pool.Proxies.getD pool.index []
    if pool.index = poolLen - 1 then some ({ pool with index := 0 }, proxy, none)
    else some ({ pool with index := pool.index + 1 }, proxy, none)
  else none

/-! ## main.go: one attempt of the worker loop (lines 241-299) -/

/-- What an attempt does that the rest of the process can observe, in order. -/
inductive Event where
  | success (msg : GoString)
  | kill
  | exit (code : Nat)
  | failedMsg (reason : GoString)
deriving DecidableEq, Repr

/-- How the body of the `for` loop is left: `os.Exit`, the `break` of line 288, or
through the label `endOfAttempt` to the next iteration. -/
inductive Flow where
  | exited
  | broke
  | next
deriving DecidableEq, Repr

structure Attempt where
  flow : Flow
  client : Client
  proxyPool : Option Pool
  nextErr : Option Error
  events : List Event
deriving DecidableEq, Repr

/-- The closure `foundPwFunc`: print the message, `client.Kill()`, `os.Exit(0)`. -/
def foundPwFunc (client : Client) (proxyPool : Option Pool) (msg : GoString) : Attempt :=
  { flow := .exited, client := client.Kill, proxyPool := proxyPool, nextErr := none,
    events := [.success msg, .kill, .exit 0] }

/-- The label `endOfAttempt` (lines 293-299): `client.Kill()`, then `attempt++` and the
optional delay, which belong to the loop. -/
def endOfAttempt (client : Client) (proxyPool : Option Pool) (nextErr : Option Error)
    (events : List Event) : Attempt :=
  { flow := .next, client := client.Kill, proxyPool := proxyPool, nextErr := nextErr,
    events := events ++ [.kill] }

/-- Lines 274-291: the dispatch on the offered security types after the handshake.
`failedMsgChanClosed` tells whether `main` has already run `close(newFailedMsgChan)`
(line 323, before `threadWg.Wait()`) when this attempt reaches the send of line 285: a
send on a closed channel panics. `none` is a panic. -/
def authDispatch (des : BlockCipher) (client : Client) (proxyPool : Option Pool)
    (failedMsgChanClosed : Bool) (pw : GoString) : Option Attempt :=
  if VncAuthNone ∈ client.SecurityTypes then
    some (foundPwFunc client proxyPool
      (str "🎉 Server has none-auth enabled, you should be able to connect w/out a password"))
  else if VncAuthBasic ∈ client.SecurityTypes then
    match SubmitAuthBasic des client pw with
    | none => none
    | some (client, some err) =>
      some (endOfAttempt client proxyPool (some (str "unexpected error during auth: " ++ err)) [])
    | some (client, none) =>
      if client.SecurityResult.Success then
        some (foundPwFunc client proxyPool (str "🎉 FOUND PASSWORD!! \"" ++ pw ++ str "\"\n"))
      else if client.SecurityResult.Reason ≠ [] then
        if failedMsgChanClosed then none
        else
          some { flow := .broke, client := client, proxyPool := proxyPool, nextErr := none,
                 events := [.failedMsg client.SecurityResult.Reason] }
      else
        some { flow := .broke, client := client, proxyPool := proxyPool, nextErr := none,
               events := [] }
  else
    some (endOfAttempt client proxyPool (some (str "no valid auth types were given by server")) [])

/-- One iteration of the worker's `for` loop from line 241 on: a fresh client, the
proxy, `Connect`, `DoHandshake`, the dispatch, and `endOfAttempt`. `dial` is the
outcome of this attempt's dial, `failedMsgChanClosed` the state of `newFailedMsgChan`
when the attempt reaches line 285; `none` is a panic. -/
def workerAttempt (des : BlockCipher) (realTargetAddr : GoString) (proxyPool : Option Pool)
    (dial : Except Error Conn) (failedMsgChanClosed : Bool) (pw : GoString) :
    Option Attempt :=
  let client : Client :=
    { DestAddr := realTargetAddr, ProxyAddr := [], Conn := none, ProtoVer := [],
      ServerProtoVer := [], SecurityTypes := [], SecurityResult := ⟨false, []⟩ }
  let proxied : Option (Client × Option Pool × Option Error) :=
    match proxyPool with
    | none => some (client, none, none)
    | some pool =>
      match pool.Get with
      | none => none
      | some (pool, proxy, err) => some ({ client with ProxyAddr := proxy }, some pool, err)
  match proxied with
  | none => none
  | some (client, proxyPool, some err) =>
    some (endOfAttempt client proxyPool (some (str "failed to get proxy from pool: " ++ err)) [])
  | some (client, proxyPool, none) =>
    match client.Connect dial with
    | (client, some err) =>
      some (endOfAttempt client proxyPool (some (str "failed to connect to server: " ++ err)) [])
    | (client, none) =>
      match DoHandshake client with
      | none => none
      | some (client, some err) =>
        some (endOfAttempt client proxyPool
          (some (str "failed to perform connection handshake: " ++ err)) [])
      | some (client, none) => authDispatch des client proxyPool failedMsgChanClosed pw

/-! ## Sample data -/

/-- A stand-in cipher for concrete runs: the block with the key added bytewise. -/
def sampleDes : BlockCipher :=
  ⟨fun key src => copyInto (makeBytes 8) (List.zipWith (fun a b => a + b) key src), by
    intro key src
    simp [copyInto, makeBytes]⟩

/-- A connected client that has not exchanged anything yet. -/
def sampleClient (conn : Conn) : Client :=
  { DestAddr := str "10.0.0.1:5900", ProxyAddr := [], Conn := some conn, ProtoVer := [],
    ServerProtoVer := [], SecurityTypes := [], SecurityResult := ⟨false, []⟩ }

/-- A server script: the reads it answers, no write error. -/
def sampleConn (incoming : List ReadEvent) : Conn :=
  { incoming := incoming, writeErrs := [], sent := [], closed := false }

/-! ## Auxiliary definitions used in the statements -/

/-- What the reading steps of the engine keep: the versions and the write log. -/
def Kept (client client' : Client) (sent : List (List Byte)) : Prop :=
  client'.ServerProtoVer = client.ServerProtoVer ∧ client'.ProtoVer = client.ProtoVer ∧
    ∃ conn', client'.Conn = some conn' ∧ conn'.sent = sent

/-- The client once a valid banner is read and the version message is handed to `Write`. -/
def afterBanner (client : Client) (conn : Conn) (banner : List Byte) (rest : List ReadEvent) :
    Client :=
  { client with
    ServerProtoVer := (banner.drop 4).take 7
    ProtoVer := negotiate ((banner.drop 4).take 7)
    Conn := some { conn with
      incoming := rest
      writeErrs := conn.writeErrs.tail
      sent := conn.sent ++ [str "RFB " ++ negotiate ((banner.drop 4).take 7) ++ str "\n"] } }

/-- The client after a read into a `k`-byte buffer has taken `bs` off the script. -/
def afterRead (client : Client) (conn : Conn) (bs : List Byte) (k : Nat)
    (rest : List ReadEvent) : Client :=
  { client with Conn := some { conn with
      incoming := if (bs.drop k).isEmpty then rest else .data (bs.drop k) :: rest } }

/-- The outcome of `readSecurityResult` that the specification gives for status code
`status` followed by the reason `r`: success for 0, failure with reason `r` for 1, the
bad-status error (which prints the code) for anything else. -/
def DecodesStatusAs (client : Client) (status : Nat) (r : GoString) : Prop :=
  ∃ client', readSecurityResult client = some (client',
      if status = 0 ∨ status = 1 then none
      else some (str "SecurityResult: invalid status code: expected [0, 1], got ("
        ++ fmtD status ++ str ")")) ∧
    client'.SecurityResult =
      if status = 0 then { client.SecurityResult with Success := true }
      else if status = 1 then { client.SecurityResult with Reason := r }
      else client.SecurityResult

/-- A client that has finished the handshake with a 3.8 server offering Basic. -/
def sampleAfterHandshake (conn : Conn) : Client :=
  { sampleClient conn with
    ProtoVer := str "003.008", ServerProtoVer := str "003.008", SecurityTypes := [2] }

/-- A challenge that is not all zeros. -/
def sampleChallenge : List Byte := [1, 2, 3, 4, 5, 6, 7, 8, 9, 10, 11, 12, 13, 14, 15, 16]

/-! ## strings, slices -/

/-- The table `first` of package `utf8`, as the size it gives for a first byte: 1 for
ASCII (`as`) and for a byte that starts no sequence (`xx`), else 2, 3 or 4. -/
def firstSize (s0 : Byte) : Nat :=
  if s0.val < 0x80 then 1
  else if s0.val < 0xC2 then 1
  else if s0.val < 0xE0 then 2
  else if s0.val < 0xF0 then 3
  else if s0.val < 0xF5 then 4
  else 1

/-- The entry of the table `acceptRanges` for a first byte: the lowest and the highest
second byte it accepts. -/
def acceptRange (s0 : Byte) : Nat × Nat :=
  if s0.val = 0xE0 then (0xA0, 0xBF)
  else if s0.val = 0xED then (0x80, 0x9F)
  else if s0.val = 0xF0 then (0x90, 0xBF)
  else if s0.val = 0xF4 then (0x80, 0x8F)
  else (0x80, 0xBF)

/-- The size `utf8.DecodeRuneInString(s)` returns: the number of bytes of the UTF-8
sequence `s` starts with; 1 for a byte that starts no well-formed sequence, 0 for the
empty string. -/
def decodeRuneSize (s : GoString) : Nat :=
  match s with
  | [] => 0
  | s0 :: _ =>
    let sz := firstSize s0
    let accept := acceptRange s0
    if sz = 1 then 1
    else if s.length < sz then 1
    else if (s.getD 1 0).val < accept.1 ∨ accept.2 < (s.getD 1 0).val then 1
    else if sz ≤ 2 then 2
    else if (s.getD 2 0).val < 0x80 ∨ 0xBF < (s.getD 2 0).val then 1
    else if sz ≤ 3 then 3
    else if (s.getD 3 0).val < 0x80 ∨ 0xBF < (s.getD 3 0).val then 1
    else 4

/-- The loop of `strings.explode`, `a[i] = s[:size]; s = s[size:]`. Go runs it
`utf8.RuneCountInString(s) - 1` times and takes what is left, one more sequence, as the
last piece; here the cut is repeated until `s` is used up, with `fuel` iterations
allowed. -/
def explodeLoop : Nat → GoString → List GoString
  | 0, _ => []
  | fuel + 1, s =>
    if s = [] then []
    else s.take (decodeRuneSize s) :: explodeLoop fuel (s.drop (decodeRuneSize s))

/-- The call `strings.Split(s, "")` on the bytes of `s`: one string per UTF-8 sequence,
and a byte that starts no well-formed sequence as a string of its own. Every step takes
at least one byte, so `len(s)` iterations use `s` up. -/
def explode (s : GoString) : List GoString :=
  explodeLoop s.length s

/-- The comparison `a < b` of two Go strings: bytewise, a proper prefix first. -/
def strLess : GoString → GoString → Bool
  | [], [] => false
  | [], _ :: _ => true
  | _ :: _, [] => false
  | a :: as, b :: bs => if a < b then true else if a = b then strLess as bs else false

/-- Insertion of `x` into an ascending list. -/
def insertString (x : GoString) : List GoString → List GoString
  | [] => [x]
  | y :: ys => if strLess x y then x :: y :: ys else y :: insertString x ys

/-- The call `slices.Sort(charset)`: the ascending rearrangement of the strings (equal
strings cannot be told apart, so every sorting algorithm yields this list). -/
def sortStrings : List GoString → List GoString
  | [] => []
  | x :: xs => insertString x (sortStrings xs)

/-- The call `slices.Compact(s)`: each run of consecutive equal strings is replaced by
a single copy. -/
def Compact : List GoString → List GoString
  | [] => []
  | [x] => [x]
  | x :: y :: rest => if x = y then Compact (y :: rest) else x :: Compact (y :: rest)

/-! ## raw_iter.go -/

/-- How a run that may panic, and whose loops are given fuel, can fail. -/
inductive RunError where
  | panic
  | outOfFuel
deriving DecidableEq, Repr

/-- The loop `for i := 0; i < len; i++ { lenPwCount *= numChars }` on `uint64`. -/
def powLoop (numChars : Nat) : Nat → Nat → Nat
  | 0, lenPwCount => lenPwCount
  | i + 1, lenPwCount => powLoop numChars i (lenPwCount * numChars % 2 ^ 64)

/-- The method `RawIter.GetPasswordCount` on `uint64`; `len` runs from `rawRangeMin`
while `len <= rawRangeMax`. -/
def RawIter.GetPasswordCount (RawCharset : GoString) (rawRangeMin rawRangeMax : Nat) : Nat :=
  let numChars := RawCharset.length % 2 ^ 64
  (List.range' rawRangeMin (rawRangeMax + 1 - rawRangeMin)).foldl
    (fun totalPwCount len => (totalPwCount + powLoop numChars len 1) % 2 ^ 64) 0

/-- The loop `for _, i := range indices { permutation += charset[i] }`; `none` is the
index-out-of-range panic. -/
def buildPermutation (charset : List GoString) : List Nat → GoString → Option GoString
  | [], permutation => some permutation
  | i :: indices, permutation =>
    if h : i < charset.length then
      buildPermutation charset indices (permutation ++ charset.get ⟨i, h⟩)
    else none

/-- The loop `for i >= 0 && indices[i] == numChars-1 { i-- }` started with `i = k - 1`:
`some i` is the index it stops at, `none` is `i < 0`. -/
def scanBack (numChars : Nat) (indices : List Nat) : Nat → Option Nat
  | 0 => none
  | k + 1 => if indices.getD k 0 + 1 = numChars then scanBack numChars indices k else some k

/-- The loop `for j := i + 1; j < len; j++ { indices[j] = 0 }` at index `j`, with `k`
iterations allowed. -/
def resetFrom (len : Nat) : Nat → Nat → List Nat → List Nat
  | 0, _, indices => indices
  | k + 1, j, indices =>
    if j < len then resetFrom len k (j + 1) (indices.set j 0) else indices

/-- Lines 50-61: the advance of `indices`; `none` is the `break`. -/
def advance (numChars len : Nat) (indices : List Nat) : Option (List Nat) :=
  match scanBack numChars indices len with
  | none => none
  | some i => some (resetFrom len len (i + 1) (indices.set i (indices.getD i 0 + 1)))

/-- The inner `for` loop of `IterPasswords` for one length, with `fuel` iterations
allowed, for a consumer that never stops the iteration: the strings it yields. -/
def lengthLoop (charset : List GoString) (len : Nat) :
    Nat → List Nat → Except RunError (List GoString)
  | 0, _ => .error .outOfFuel
  | fuel + 1, indices =>
    match buildPermutation charset indices [] with
    | none => .error .panic
    | some permutation =>
      match advance charset.length len indices with
      | none => .ok [permutation]
      | some indices =>
        match lengthLoop charset len fuel indices with
        | .error e => .error e
        | .ok out => .ok (permutation :: out)

/-- The outer loop of `IterPasswords` over the lengths in `lens`. -/
def lengthsLoop (charset : List GoString) (fuel : Nat) :
    List Nat → Except RunError (List GoString)
  | [] => .ok []
  | len :: lens =>
    match lengthLoop charset len fuel (List.replicate len 0) with
    | .error e => .error e
    | .ok out =>
      match lengthsLoop charset fuel lens with
      | .error e => .error e
      | .ok outs => .ok (out ++ outs)

/-- The charset `IterPasswords` works with: split, sorted, compacted. `RawCharset` is
the value of the flag `-chars`, the bytes of the command-line argument. -/
def rawCharset (RawCharset : GoString) : List GoString :=
  Compact (sortStrings (explode RawCharset))

/-- The method `RawIter.IterPasswords`, run to the end: everything it yields, in order.
Each inner loop may take `fuel` iterations. -/
def RawIter.IterPasswords (RawCharset : GoString) (rawRangeMin rawRangeMax : Nat)
    (fuel : Nat) : Except RunError (List GoString) :=
  lengthsLoop (rawCharset RawCharset) fuel
    (List.range' rawRangeMin (rawRangeMax + 1 - rawRangeMin))

/-! ## Specification side of the raw iterator -/

/-- The base-`n` representation of `k`, most significant digit first, padded on the left
to `l` digits. -/
def digits (n : Nat) : Nat → Nat → List Nat
  | 0, _ => []
  | l + 1, k => digits n l (k / n) ++ [k % n]

/-- The `k`-th candidate of length `l` over the charset `C`: the digits of `k`, each
digit `d` replaced by the `d`-th character of `C`. -/
def candidate (C : List GoString) (l k : Nat) : GoString :=
  ((digits C.length l k).map (fun d => C.getD d [])).flatten

/-- The length of a UTF-8 sequence, read off its first byte. -/
def leadLen (b : Nat) : Nat :=
  if b < 0x80 then 1 else if b < 0xE0 then 2 else if b < 0xF0 then 3 else 4

/-- The string is valid UTF-8 (`utf8.ValidString`): the decoding meets no byte that
starts no well-formed sequence, so every piece of the split has the length its first
byte announces. -/
def validUTF8 (s : GoString) : Bool :=
  (explode s).all (fun c => decide (c.length = leadLen (c.headD 0).val))

/-- The string `u` comes before `v` at a position where both have a byte. -/
def StrictBefore (u v : GoString) : Prop := strLess u v = true ∧ ¬ u <+: v

/-! ## wordlist_iter.go -/

/-- The type `WordlistIter`. The wordlist file is an opaque line source: `lines` is what
`bufio.Scanner` returns for it, the same at every opening. -/
structure WordlistIter where
  cachedPwCount : Nat
  wordStore : List GoString
deriving DecidableEq, Repr

/-- The function `lineIsWord`; `TrimSpace` is `strings.TrimSpace`. -/
def lineIsWord (TrimSpace : GoString → GoString) (line : GoString) : Bool :=
  TrimSpace line != []

/-- The function `countWordsInFile`: its scanning loop, with `out` so far. -/
def countWordsInFile (TrimSpace : GoString → GoString) : List GoString → Nat → Nat
  | [], out => out
  | line :: lines, out =>
    if lineIsWord TrimSpace line then countWordsInFile TrimSpace lines (out + 1)
    else countWordsInFile TrimSpace lines out

/-- The loop of lines 37-50 of `IterPasswords`, at index `i`; `none` is the
index-out-of-range panic of `wordStore[i] = ...`. -/
def fillWordStore (TrimSpace : GoString → GoString) :
    List GoString → Nat → List GoString → Option (List GoString)
  | [], _, wordStore => some wordStore
  | word :: lines, i, wordStore =>
    if !lineIsWord TrimSpace word then fillWordStore TrimSpace lines i wordStore
    else
      let n := if word.length > 8 then 8 else word.length
      if i < wordStore.length then
        fillWordStore TrimSpace lines (i + 1) (wordStore.set i (word.take n))
      else none

/-- The method `WordlistIter.IterPasswords`, run to the end by a consumer that never
stops: the receiver after the call and everything yielded, in order. -/
def WordlistIter.IterPasswords (TrimSpace : GoString → GoString) (lines : List GoString)
    (iter : WordlistIter) : Option (WordlistIter × List GoString) :=
  if iter.wordStore.length = 0 then
    let origWordCount := countWordsInFile TrimSpace lines 0
    match fillWordStore TrimSpace lines 0 (List.replicate origWordCount []) with
    | none => none
    | some wordStore =>
      let wordStore := Compact wordStore
      some ({ iter with wordStore := wordStore }, wordStore)
  else some (iter, iter.wordStore)

/-- The method `WordlistIter.GetPasswordCount`. The counter cannot overflow: it counts
the elements of a slice. -/
def WordlistIter.GetPasswordCount (TrimSpace : GoString → GoString) (lines : List GoString)
    (iter : WordlistIter) : Option (WordlistIter × Nat) :=
  if iter.cachedPwCount ≠ 0 then some (iter, iter.cachedPwCount)
  else
    match iter.IterPasswords TrimSpace lines with
    | none => none
    | some (iter, pws) =>
      let count := pws.foldl (fun count _ => count + 1) 0
      some ({ iter with cachedPwCount := count }, count)

/-! ## main.go: the mode switch and the producer loop -/

/-- Which implementation of `IterProvider` the variable `iter` holds. -/
inductive IterProvider where
  | wordlist
  | raw
deriving DecidableEq, Repr

/-- How the mode switch ends: `os.Exit(code)`, or `iter` assigned. -/
inductive Startup where
  | exit (code : Nat)
  | run (iter : IterProvider)
deriving DecidableEq, Repr

/-- The `switch *BruteMode` of lines 123-166. `parsedRange` is what
`util.ParseNumRange(*RawRange)` returned; `usage(1)` ends in `os.Exit(1)`. -/
def modeSwitch (BruteMode WordlistPath : GoString) (RawCharset : GoString)
    (parsedRange : Except Error (Int × Int)) (StartIndex : Nat) : Startup :=
  if BruteMode = str "wordlist" then
    if WordlistPath = [] then .exit 1 else .run .wordlist
  else if BruteMode = str "raw" then
    if RawCharset = [] then .exit 1
    else
      match parsedRange with
      | .error _ => .exit 1
      | .ok (rawRangeMin, rawRangeMax) =>
        if rawRangeMin = 0 ∨ rawRangeMax = 0 then .exit 1
        else if rawRangeMin < 0 ∨ rawRangeMax < 0 then .exit 1
        else
          let pwCount :=
            RawIter.GetPasswordCount RawCharset rawRangeMin.toNat rawRangeMax.toNat
          if StartIndex > pwCount then .exit 1 else .run .raw
  else .exit 1

/-- The producer loop of lines 312-320 over what the generator yields, with the counter
at `i`: the strings sent to `pwChan`, in order. -/
def producerLoop (StartIndex : Nat) : List GoString → Nat → List GoString
  | [], _ => []
  | pw :: pws, i =>
    if i < StartIndex then producerLoop StartIndex pws (i + 1)
    else pw :: producerLoop StartIndex pws i

/-- How `main` ends as far as the candidate channel goes. -/
inductive MainResult where
  | exit (code : Nat)
  | sent (pws : List GoString)
  | failed (e : RunError)
deriving DecidableEq, Repr

/-- The function `main` from the mode switch to the end of the producer loop, with no
proxy file and the probe passed: the exit, or what is sent to the workers. -/
def mainProducer (TrimSpace : GoString → GoString) (BruteMode WordlistPath : GoString)
    (lines : List GoString) (RawCharset : GoString) (parsedRange : Except Error (Int × Int))
    (StartIndex : Nat) (fuel : Nat) : MainResult :=
  match modeSwitch BruteMode WordlistPath RawCharset parsedRange StartIndex with
  | .exit code => .exit code
  | .run .wordlist =>
    match WordlistIter.GetPasswordCount TrimSpace lines ⟨0, []⟩ with
    | none => .failed .panic
    | some (iter, _) =>
      match iter.IterPasswords TrimSpace lines with
      | none => .failed .panic
      | some (_, pws) => .sent (producerLoop StartIndex pws 0)
  | .run .raw =>
    match parsedRange with
    | .error _ => .failed .panic
    | .ok (rawRangeMin, rawRangeMax) =>
      match RawIter.IterPasswords RawCharset rawRangeMin.toNat rawRangeMax.toNat fuel with
      | .error e => .failed e
      | .ok pws => .sent (producerLoop StartIndex pws 0)

/-! ## main.go: the worker loop for one candidate (lines 223-302) -/

/-- What the loop does around the attempts. -/
inductive LoopEvent where
  | printError (msg : Error)
  | sleepSecond
  | attempt (events : List Event)
  | delay
  | increment
deriving DecidableEq, Repr

/-- How the loop for one candidate stands: left, with `progressBar.Increment()` done;
the process ended by `os.Exit` in an attempt; or still looping when the fuel ran out.
`attempts` counts the attempts made. -/
inductive LoopResult where
  | finished (attempts : Nat) (proxyPool : Option Pool) (events : List LoopEvent)
  | exited (attempts : Nat) (events : List LoopEvent)
  | outOfFuel (attempts : Nat) (events : List LoopEvent)
deriving DecidableEq, Repr

/-- The `for` loop of lines 227-300 and the increment of line 302, from the state
`attempt`, `nextErr`, `lastErr`, with `fuel` iterations allowed. `dials a` is the outcome
of the dial of the attempt made when `attempt = a`, and `chanClosed a` tells whether
`newFailedMsgChan` is closed when that attempt reaches line 285; `delay` is
`*DelaySeconds != 0`. `none` is a panic, which ends the process. -/
def candidateLoop (des : BlockCipher) (realTargetAddr : GoString) (NumRetries : Int)
    (delay : Bool) (dials : Nat → Except Error Conn) (chanClosed : Nat → Bool)
    (pw : GoString) :
    Nat → Nat → Option Pool → Option Error → Option Error → List LoopEvent →
      Option LoopResult
  | 0, attempt, _, _, _, events => some (.outOfFuel attempt events)
  | fuel + 1, attempt, proxyPool, nextErr, lastErr, events =>
    if (attempt : Int) > NumRetries ∧ NumRetries ≠ -1 then
      some (.finished attempt proxyPool (events ++ [.increment]))
    else
      let reported : Option Error × List LoopEvent :=
        match nextErr with
        | some err =>
          (some err,
            events ++ [if lastErr = none ∨ some err ≠ lastErr then .printError err
                       else .sleepSecond])
        | none => (lastErr, events)
      match workerAttempt des realTargetAddr proxyPool (dials attempt) (chanClosed attempt)
          pw with
      | none => none
      | some a =>
        match a.flow with
        | .exited => some (.exited (attempt + 1) (reported.2 ++ [.attempt a.events]))
        | .broke =>
          some (.finished (attempt + 1) a.proxyPool
            (reported.2 ++ [.attempt a.events, .increment]))
        | .next =>
          candidateLoop des realTargetAddr NumRetries delay dials chanClosed pw fuel
            (attempt + 1) a.proxyPool a.nextErr reported.1
            (reported.2 ++ [.attempt a.events] ++ (if delay then [.delay] else []))

/-- The attempt with 0-based index `a` at a candidate: the first attempt finds the pool
`proxyPool`, the dial `dials 0` and the channel state `chanClosed 0`; each later one
finds the pool as the attempt before left it. -/
def attemptAt (des : BlockCipher) (realTargetAddr : GoString) (pw : GoString) :
    Nat → Option Pool → (Nat → Except Error Conn) → (Nat → Bool) → Option Attempt
  | 0, proxyPool, dials, chanClosed =>
    workerAttempt des realTargetAddr proxyPool (dials 0) (chanClosed 0) pw
  | a + 1, proxyPool, dials, chanClosed =>
    match workerAttempt des realTargetAddr proxyPool (dials 0) (chanClosed 0) pw with
    | none => none
    | some first =>
      attemptAt des realTargetAddr pw a first.proxyPool (fun i => dials (i + 1))
        (fun i => chanClosed (i + 1))

/-- A stand-in for `strings.TrimSpace` on ASCII text: leading and trailing blanks, tabs,
line feeds, vertical tabs, form feeds and carriage returns removed. -/
def asciiTrimSpace (s : GoString) : GoString :=
  let isSpace : Byte → Bool := fun b => b = 32 ∨ (9 ≤ b ∧ b ≤ 13)
  ((s.dropWhile isSpace).reverse.dropWhile isSpace).reverse

/-- The outcome of `m` calls of `Pool.Get` one after the other: the pool after them and
what each call returned, in order. -/
def getCalls : Nat → Pool → Option (Pool × List (GoString × Option Error))
  | 0, pool => some (pool, [])
  | m + 1, pool =>
    match pool.Get with
    | none => none
    | some (pool, proxy, err) =>
      match getCalls m pool with
      | none => none
      | some (pool, outs) => some (pool, (proxy, err) :: outs)

/-- The sequence the specification gives for a wordlist with the lines `lines`: the
lines that are not blank, in file order, each cut to its first 8 bytes, and then each
run of consecutive equal entries reduced to one entry. -/
def wordSequence (TrimSpace : GoString → GoString) (lines : List GoString) : List GoString :=
  ((lines.filter (fun line => TrimSpace line ≠ [])).map (List.take 8)).destutter (· ≠ ·)

/-- The dials of a honeypot: every attempt connects to a 3.8 server that offers Basic and
sends the all-zero challenge. -/
def honeypotDials : Nat → Except Error Conn :=
  fun _ => .ok (sampleConn [.data (str "RFB 003.008\n"), .data [1, 2],
    .data [0, 0, 0, 0, 0, 0, 0, 0, 0, 0, 0, 0, 0, 0, 0, 0]])

/-- The dials of a server that turns every password down with a reason: a 3.8 server
that offers Basic, sends a challenge and answers the response with status 1 and the
reason "Authentication failed". -/
def rejectingDials : Nat → Except Error Conn :=
  fun _ => .ok (sampleConn [.data (str "RFB 003.008\n"), .data [1, 2], .data sampleChallenge,
    .data ([0, 0, 0, 1, 0, 0, 0, 21] ++ str "Authentication failed")])

/-! # Theorems -/

/-! ## The DES key -/

set_option maxRecDepth 100000 in
theorem Reverse8_testBit_fin :
    ∀ b : Byte, ∀ j : Fin 8, (Reverse8 b).val.testBit j.val = b.val.testBit (7 - j.val) := by
  decide

theorem Reverse8_testBit (b : Byte) (j : Nat) (hj : j < 8) :
    (Reverse8 b).val.testBit j = b.val.testBit (7 - j) :=
  Reverse8_testBit_fin b ⟨j, hj⟩

theorem desKey_shape (p : GoString) :
    desKey p =
      (List.range 8).map (fun i => if i < p.length then Reverse8 (p.getD i 0) else 0) := by
  rcases p with _ | ⟨a0, _ | ⟨a1, _ | ⟨a2, _ | ⟨a3, _ | ⟨a4, _ | ⟨a5, _ | ⟨a6, _ | ⟨a7, _ | ⟨a8, r⟩⟩⟩⟩⟩⟩⟩⟩⟩ <;>
    simp [desKey, keyLoop, makeBytes, List.replicate, List.range, List.range.loop]

theorem desKey_getD (p : GoString) (i : Nat) (hi : i < 8) :
    (desKey p).getD i 0 = if i < p.length then Reverse8 (p.getD i 0) else 0 := by
  rw [desKey_shape]
  interval_cases i <;> simp [List.range, List.range.loop]

theorem desKey_length (p : GoString) : (desKey p).length = 8 := by
  simp [desKey_shape]

/-- C1: the key SubmitAuthBasic builds has 8 bytes; byte i is the bit reversal of
p[i] for i < min(len p, 8) (bit j of the key byte is bit 7-j of the password byte) and
0x00 for every other i < 8; so the key of p is the key of the first 8 bytes of p, and
"abcdefghij" and "abcdefgh" give the same key. -/
theorem desKey_spec (p : GoString) :
    (desKey p).length = 8 ∧
    (∀ i, i < 8 →
      (desKey p).getD i 0 = if i < min p.length 8 then Reverse8 (p.getD i 0) else 0) ∧
    (∀ i j, i < min p.length 8 → j < 8 →
      ((desKey p).getD i 0).val.testBit j = (p.getD i 0).val.testBit (7 - j)) ∧
    desKey p = desKey (p.take 8) ∧
    desKey (str "abcdefghij") = desKey (str "abcdefgh") := by
  refine ⟨desKey_length p, ?_, ?_, ?_, by decide⟩
  · intro i hi
    rw [desKey_getD p i hi]
    have : (i < min p.length 8) ↔ (i < p.length) := by omega
    simp only [this]
  · intro i j hi hj
    have hi8 : i < 8 := by omega
    have hip : i < p.length := by omega
    rw [desKey_getD p i hi8, if_pos hip]
    exact Reverse8_testBit _ j hj
  · apply List.ext_getElem
    · simp [desKey_shape]
    · intro i h1 h2
      have hi : i < 8 := by simpa [desKey_shape] using h1
      have e1 := desKey_getD p i hi
      have e2 := desKey_getD (p.take 8) i hi
      rw [List.getD_eq_getElem _ _ h1] at e1
      rw [List.getD_eq_getElem _ _ h2] at e2
      rw [e1, e2]
      have hlen : (i < (p.take 8).length) ↔ (i < p.length) := by
        simp [List.length_take]; omega
      simp only [hlen, List.getD_eq_getElem?_getD, List.getElem?_take, hi, if_true]

/-! ## Buffers and reads -/

theorem copyInto_makeBytes (k : Nat) (pre extra : List Byte) (h : pre.length ≤ k) :
    ∃ tail, copyInto (makeBytes k) (pre ++ extra) = pre ++ tail ∧ tail.length = k - pre.length := by
  refine ⟨(extra.take (k - pre.length)) ++ (makeBytes k).drop ((pre ++ extra).take k).length, ?_, ?_⟩
  · simp [copyInto, makeBytes, List.take_append_eq_append_take, List.take_of_length_le h]
  · simp [makeBytes, List.length_take]
    omega

theorem copyInto_length (dst src : List Byte) : (copyInto dst src).length = dst.length := by
  simp [copyInto, List.length_take]

theorem read_data (client : Client) (conn : Conn) (bs buf : List Byte)
    (rest : List ReadEvent) (hconn : client.Conn = some conn)
    (hin : conn.incoming = .data bs :: rest) :
    client.read buf = some
      ({ client with Conn := some { conn with
            incoming := if (bs.drop buf.length).isEmpty then rest
                        else .data (bs.drop buf.length) :: rest } },
        copyInto buf bs, min bs.length buf.length, none) := by
  simp [Client.read, Conn.Read, hconn, hin]

/-- Any read leaves the write side of the connection alone. -/
theorem read_frame (client : Client) (conn : Conn) (buf : List Byte)
    (hconn : client.Conn = some conn) :
    ∃ conn' buf' n err, client.read buf = some ({ client with Conn := some conn' }, buf', n, err)
      ∧ conn'.sent = conn.sent ∧ conn'.closed = conn.closed ∧ buf'.length = buf.length := by
  rcases hin : conn.incoming with _ | ⟨ev, rest⟩
  · exact ⟨conn, buf, 0, some (str "EOF"), by simp [Client.read, Conn.Read, hconn, hin],
      rfl, rfl, rfl⟩
  · cases ev with
    | data bs =>
      exact ⟨_, _, _, _, read_data client conn bs buf rest hconn hin, rfl, rfl,
        copyInto_length _ _⟩
    | fail e =>
      exact ⟨{ conn with incoming := rest }, buf, 0, some e,
        by simp [Client.read, Conn.Read, hconn, hin], rfl, rfl, rfl⟩

/-- A write appends its payload to the log, whatever its outcome. -/
theorem write_frame (client : Client) (conn : Conn) (b : List Byte)
    (hconn : client.Conn = some conn) :
    ∃ conn' n err, client.write b = some ({ client with Conn := some conn' }, n, err)
      ∧ conn'.sent = conn.sent ++ [b] ∧ conn'.incoming = conn.incoming
      ∧ conn'.closed = conn.closed
      ∧ (conn.writeErrs.headD none = none → err = none) := by
  rcases hw : conn.writeErrs with _ | ⟨_ | e, rest⟩
  · exact ⟨{ conn with sent := conn.sent ++ [b] }, b.length, none,
      by simp [Client.write, Conn.Write, hconn, hw], rfl, rfl, rfl, by simp⟩
  · exact ⟨{ conn with writeErrs := rest, sent := conn.sent ++ [b] }, b.length, none,
      by simp [Client.write, Conn.Write, hconn, hw], rfl, rfl, rfl, by simp⟩
  · exact ⟨{ conn with writeErrs := rest, sent := conn.sent ++ [b] }, 0, some e,
      by simp [Client.write, Conn.Write, hconn, hw], rfl, rfl, rfl, by simp⟩

theorem securityHandshake33_frame (client : Client) (conn : Conn)
    (hconn : client.Conn = some conn) :
    ∃ client' err, securityHandshake33 client = some (client', err)
      ∧ Kept client client' conn.sent := by
  obtain ⟨conn', buf', n, err, hr, hs, -, -⟩ := read_frame client conn (makeBytes 512) hconn
  unfold securityHandshake33
  rw [hr]
  cases err with
  | some e => exact ⟨_, _, rfl, rfl, rfl, conn', rfl, hs⟩
  | none =>
    simp only
    split
    · exact ⟨_, _, rfl, rfl, rfl, conn', rfl, hs⟩
    · split
      · exact ⟨_, _, rfl, rfl, rfl, conn', rfl, hs⟩
      · split
        · exact ⟨_, _, rfl, rfl, rfl, conn', rfl, hs⟩
        · exact ⟨_, _, rfl, rfl, rfl, conn', rfl, hs⟩

theorem securityHandshake38_frame (client : Client) (conn : Conn)
    (hconn : client.Conn = some conn) :
    ∃ client' err, securityHandshake38 client = some (client', err)
      ∧ Kept client client' conn.sent := by
  obtain ⟨conn', buf', n, err, hr, hs, -, -⟩ := read_frame client conn (makeBytes 512) hconn
  unfold securityHandshake38
  rw [hr]
  cases err with
  | some e => exact ⟨_, _, rfl, rfl, rfl, conn', rfl, hs⟩
  | none =>
    simp only
    split
    · exact ⟨_, _, rfl, rfl, rfl, conn', rfl, hs⟩
    · split
      · exact ⟨_, _, rfl, rfl, rfl, conn', rfl, hs⟩
      · split
        · exact ⟨_, _, rfl, rfl, rfl, conn', rfl, hs⟩
        · exact ⟨_, _, rfl, rfl, rfl, conn', rfl, hs⟩

theorem readSecurityResult_frame (client : Client) (conn : Conn)
    (hconn : client.Conn = some conn) :
    ∃ client' err, readSecurityResult client = some (client', err)
      ∧ Kept client client' conn.sent := by
  obtain ⟨conn', buf', n, err, hr, hs, -, -⟩ := read_frame client conn (makeBytes 512) hconn
  unfold readSecurityResult
  rw [hr]
  cases err with
  | some e => exact ⟨_, _, rfl, rfl, rfl, conn', rfl, hs⟩
  | none =>
    simp only
    split
    · exact ⟨_, _, rfl, rfl, rfl, conn', rfl, hs⟩
    · split
      · exact ⟨_, _, rfl, rfl, rfl, conn', rfl, hs⟩
      · split
        · exact ⟨_, _, rfl, rfl, rfl, conn', rfl, hs⟩
        · exact ⟨_, _, rfl, rfl, rfl, conn', rfl, hs⟩

theorem makeBytes_length (n : Nat) : (makeBytes n).length = n := by
  simp [makeBytes]

theorem copyInto_exact (bs : List Byte) : copyInto (makeBytes bs.length) bs = bs := by
  simp [copyInto, makeBytes]

theorem DoHandshake_after_banner (client : Client) (conn : Conn) (banner : List Byte)
    (rest : List ReadEvent) (hconn : client.Conn = some conn)
    (hin : conn.incoming = .data banner :: rest) (hlen : banner.length = 12)
    (hpre : banner.take 4 = str "RFB ") :
    DoHandshake client =
      match conn.writeErrs.headD none with
      | some err =>
        some (afterBanner client conn banner rest, some (str "ProtocolVersionResponse: " ++ err))
      | none =>
        if negotiate ((banner.drop 4).take 7) = RfbProtoVer_3_3 then
          securityHandshake33 (afterBanner client conn banner rest)
        else securityHandshake38 (afterBanner client conn banner rest) := by
  have hbuf : copyInto (makeBytes 12) banner = banner := hlen ▸ copyInto_exact banner
  have hdrop : banner.drop 12 = [] := List.drop_eq_nil_of_le (by omega)
  unfold DoHandshake
  rw [read_data client conn banner (makeBytes 12) rest hconn hin]
  simp only [hbuf, hlen, makeBytes_length, min_self, ne_eq, not_true_eq_false,
    if_false, hpre, hdrop, List.isEmpty_nil, if_true]
  rcases hw : conn.writeErrs with _ | ⟨_ | e, wrest⟩ <;>
    simp [Client.write, Conn.Write, hw, afterBanner]

theorem negotiate_eq (v : GoString) :
    negotiate v =
      if v ∈ [str "003.003", str "003.007", str "003.008", str "003.889"] then v
      else str "003.003" := by
  unfold negotiate RfbProtoVer_3_3 RfbProtoVer_3_7 RfbProtoVer_3_8 RfbProtoVer_3_889
  by_cases h1 : v = str "003.003"
  · subst h1; decide
  · by_cases h2 : v = str "003.007"
    · subst h2; decide
    · by_cases h3 : v = str "003.008"
      · subst h3; decide
      · by_cases h4 : v = str "003.889"
        · subst h4; decide
        · simp [h1, h2, h3, h4]

theorem negotiate_length (v : GoString) : (negotiate v).length = 7 := by
  unfold negotiate
  split_ifs <;> decide

theorem str_RFB_length : (str "RFB ").length = 4 := by decide

theorem str_newline_length : (str "\n").length = 1 := by decide

/-- Every way `DoHandshake` continues after a valid banner: the versions are set, and the
version message is the one payload handed to `Write`. -/
theorem DoHandshake_valid_banner (client : Client) (conn : Conn) (banner : List Byte)
    (rest : List ReadEvent) (hconn : client.Conn = some conn)
    (hin : conn.incoming = .data banner :: rest) (hlen : banner.length = 12)
    (hpre : banner.take 4 = str "RFB ") :
    ∃ client' err, DoHandshake client = some (client', err) ∧
      Kept (afterBanner client conn banner rest) client'
        (conn.sent ++ [str "RFB " ++ negotiate ((banner.drop 4).take 7) ++ str "\n"]) := by
  rw [DoHandshake_after_banner client conn banner rest hconn hin hlen hpre]
  cases conn.writeErrs.headD none with
  | some e => exact ⟨_, _, rfl, rfl, rfl, _, rfl, rfl⟩
  | none =>
    simp only
    split
    · exact securityHandshake33_frame (afterBanner client conn banner rest) _ rfl
    · exact securityHandshake38_frame (afterBanner client conn banner rest) _ rfl

/-- C8: a 12-byte banner starting with "RFB " sets ServerProtoVer to bytes 4..10 and
ProtoVer to that string when it is one of 003.003, 003.007, 003.008, 003.889 and to
003.003 otherwise, however the rest of the handshake ends; a banner read of fewer than
12 bytes, or a 12-byte banner with another prefix, makes DoHandshake return an error
with nothing handed to Write and both version fields untouched. -/
theorem DoHandshake_banner (client : Client) (conn : Conn) (banner : List Byte)
    (rest : List ReadEvent) (hconn : client.Conn = some conn)
    (hin : conn.incoming = .data banner :: rest) :
    (banner.length = 12 → banner.take 4 = str "RFB " →
      ∃ client' err, DoHandshake client = some (client', err) ∧
        client'.ServerProtoVer = (banner.drop 4).take 7 ∧
        client'.ProtoVer =
          if (banner.drop 4).take 7 ∈
              [str "003.003", str "003.007", str "003.008", str "003.889"]
          then (banner.drop 4).take 7 else str "003.003") ∧
    (banner.length < 12 ∨ (banner.length = 12 ∧ banner.take 4 ≠ str "RFB ") →
      ∃ client' err conn', DoHandshake client = some (client', some err) ∧
        client'.Conn = some conn' ∧ conn'.sent = conn.sent ∧
        client'.ServerProtoVer = client.ServerProtoVer ∧ client'.ProtoVer = client.ProtoVer) := by
  constructor
  · intro hlen hpre
    obtain ⟨client', err, h, hs, hp, -⟩ :=
      DoHandshake_valid_banner client conn banner rest hconn hin hlen hpre
    exact ⟨client', err, h, hs, by rw [hp, ← negotiate_eq]; rfl⟩
  · intro hbad
    have hr := read_data client conn banner (makeBytes 12) rest hconn hin
    rcases hbad with hshort | ⟨hlen, hpre⟩
    · have hn : min banner.length 12 ≠ 12 := by omega
      have h : DoHandshake client = some
          ({ client with Conn := some { conn with
                incoming := if (banner.drop (makeBytes 12).length).isEmpty then rest
                            else .data (banner.drop (makeBytes 12).length) :: rest } },
            some (str "InitServerBanner: expected exactly 12 bytes, got ("
              ++ fmtD (min banner.length 12) ++ str ")")) := by
        unfold DoHandshake
        rw [hr]
        simp only [makeBytes_length, ne_eq, hn, not_false_eq_true, if_true]
      exact ⟨_, _, _, h, rfl, rfl, rfl, rfl⟩
    · have hbuf : copyInto (makeBytes 12) banner = banner := hlen ▸ copyInto_exact banner
      have h : DoHandshake client = some
          ({ client with Conn := some { conn with
                incoming := if (banner.drop (makeBytes 12).length).isEmpty then rest
                            else .data (banner.drop (makeBytes 12).length) :: rest } },
            some (str "InitServerBanner: invalid RFB banner header (\"" ++ banner.take 4
              ++ str "\")")) := by
        unfold DoHandshake
        rw [hr]
        simp only [makeBytes_length, hlen, min_self, ne_eq, not_true_eq_false, if_false, hbuf,
          hpre, not_false_eq_true, if_true]
      exact ⟨_, _, _, h, rfl, rfl, rfl, rfl⟩

/-- C9, amended: after a valid banner the write log grows by exactly one payload, the
12 bytes "RFB " + ProtoVer + "\n" with ProtoVer the negotiated version, whatever the
outcome of that write and of the rest of the handshake. -/
theorem DoHandshake_version_message (client : Client) (conn : Conn) (banner : List Byte)
    (rest : List ReadEvent) (hconn : client.Conn = some conn)
    (hin : conn.incoming = .data banner :: rest) (hlen : banner.length = 12)
    (hpre : banner.take 4 = str "RFB ") :
    ∃ client' err conn', DoHandshake client = some (client', err) ∧
      client'.Conn = some conn' ∧
      conn'.sent = conn.sent ++ [str "RFB " ++ client'.ProtoVer ++ str "\n"] ∧
      (str "RFB " ++ client'.ProtoVer ++ str "\n").length = 12 := by
  obtain ⟨client', err, h, -, hp, conn', hc, hsent⟩ :=
    DoHandshake_valid_banner client conn banner rest hconn hin hlen hpre
  have hp' : client'.ProtoVer = negotiate ((banner.drop 4).take 7) := hp
  refine ⟨client', err, conn', h, hc, by rw [hsent, hp'], ?_⟩
  rw [hp']
  simp [negotiate_length, str_RFB_length, str_newline_length]


/-! ## Parsing the scratch buffer -/

theorem binaryReadU32_cons (b0 b1 b2 b3 : Byte) (s : List Byte) (order : ByteOrder) :
    binaryReadU32 (b0 :: b1 :: b2 :: b3 :: s) order
      = (s, .ok (order.Uint32 [b0, b1, b2, b3])) := by
  simp [binaryReadU32]

theorem Uint32_big (b0 b1 b2 b3 : Byte) :
    ByteOrder.BigEndian.Uint32 [b0, b1, b2, b3]
      = b0.val * 2 ^ 24 + b1.val * 2 ^ 16 + b2.val * 2 ^ 8 + b3.val := by
  simp [ByteOrder.Uint32]
  omega

theorem Uint32_little (b0 b1 b2 b3 : Byte) :
    ByteOrder.LittleEndian.Uint32 [b0, b1, b2, b3]
      = b0.val + b1.val * 2 ^ 8 + b2.val * 2 ^ 16 + b3.val * 2 ^ 24 := by
  simp [ByteOrder.Uint32]

theorem copyInto_prefix (s tail : List Byte) : copyInto (makeBytes s.length) (s ++ tail) = s := by
  simp [copyInto, makeBytes]

/-- A length-prefixed string that lies whole in the reader, with at least one byte in
the reader after the prefix, is returned as it is. -/
theorem ReadU32String_whole (l0 l1 l2 l3 : Byte) (s tail : List Byte)
    (hlen : l0.val * 2 ^ 24 + l1.val * 2 ^ 16 + l2.val * 2 ^ 8 + l3.val = s.length)
    (hne : (s ++ tail).length ≠ 0) :
    ReadU32String (l0 :: l1 :: l2 :: l3 :: (s ++ tail)) .BigEndian = (tail, s, none) := by
  unfold ReadU32String
  rw [binaryReadU32_cons, Uint32_big, hlen]
  simp only [hne, if_false, copyInto_prefix, List.drop_left]

theorem take_succ_set (l : List Byte) :
    ∀ (i : Nat) (t : Byte), i < l.length → (l.set i t).take (i + 1) = l.take i ++ [t] := by
  induction l with
  | nil => intro i t hi; simp at hi
  | cons a l ih =>
    intro i t hi
    cases i with
    | zero => simp
    | succ i => simp [ih i t (by simpa using hi)]

theorem secTypesLoop_ok (k : Nat) :
    ∀ (i : Nat) (types tail : List Byte) (l : List VncAuth),
      types.length = k → l.length = i + k →
      secTypesLoop k i (types ++ tail) l = (tail, .ok (l.take i ++ types)) := by
  induction k with
  | zero =>
    intro i types tail l ht hl
    have : types = [] := List.length_eq_zero.mp ht
    subst this
    simp [secTypesLoop, List.take_of_length_le (by omega : l.length ≤ i)]
  | succ k ih =>
    intro i types tail l ht hl
    rcases types with _ | ⟨t, types⟩
    · simp at ht
    · have ht' : types.length = k := by simpa using ht
      simp only [secTypesLoop, List.cons_append, binaryReadU8]
      rw [ih (i + 1) types tail (l.set i t) ht' (by simp; omega)]
      have hi : i < l.length := by omega
      have : (l.set i t).take (i + 1) = l.take i ++ [t] := take_succ_set l i t hi
      rw [this]
      simp

/-- The branch for 3.7, 3.8 and 3.889 on a message that offers `N >= 1` types. -/
theorem securityHandshake38_types (client : Client) (conn : Conn) (N : Byte)
    (types extra : List Byte) (rest : List ReadEvent) (hconn : client.Conn = some conn)
    (hin : conn.incoming = .data (N :: types ++ extra) :: rest) (hN : N ≠ 0)
    (hlen : types.length = N.val) :
    ∃ client', securityHandshake38 client = some (client', none)
      ∧ client'.SecurityTypes = types := by
  have hpre : (N :: types).length ≤ 512 := by
    have := N.isLt
    simp [hlen]; omega
  obtain ⟨tail, hbuf, -⟩ := copyInto_makeBytes 512 (N :: types) extra hpre
  have hr := read_data client conn (N :: types ++ extra) (makeBytes 512) rest hconn hin
  simp only [List.cons_append] at hbuf hr
  unfold securityHandshake38
  rw [hr]
  simp only [hbuf, binaryReadU8, hN, if_false]
  rw [secTypesLoop_ok N.val 0 types tail (makeBytes N.val) hlen (by simp [makeBytes_length])]
  exact ⟨_, rfl, by simp⟩

/-- The branch for 3.7, 3.8 and 3.889 on a message with count 0 and a reason. -/
theorem securityHandshake38_reason (client : Client) (conn : Conn) (l0 l1 l2 l3 : Byte)
    (reason extra : List Byte) (rest : List ReadEvent) (hconn : client.Conn = some conn)
    (hin : conn.incoming = .data (0 :: l0 :: l1 :: l2 :: l3 :: reason ++ extra) :: rest)
    (hlen : l0.val * 2 ^ 24 + l1.val * 2 ^ 16 + l2.val * 2 ^ 8 + l3.val = reason.length)
    (hfit : 5 + reason.length ≤ 512) :
    ∃ client', securityHandshake38 client = some (client',
        some (str "SecurityHandshakeOptions: no security types returned: " ++ reason))
      ∧ client'.SecurityTypes = client.SecurityTypes := by
  have hpre : (0 :: l0 :: l1 :: l2 :: l3 :: reason).length ≤ 512 := by
    simp; omega
  obtain ⟨tail, hbuf, htail⟩ :=
    copyInto_makeBytes 512 (0 :: l0 :: l1 :: l2 :: l3 :: reason) extra hpre
  have hr := read_data client conn (0 :: l0 :: l1 :: l2 :: l3 :: reason ++ extra)
    (makeBytes 512) rest hconn hin
  have hne : (reason ++ tail).length ≠ 0 := by
    simp only [List.length_append, List.length_cons] at htail ⊢
    omega
  simp only [List.cons_append] at hbuf hr
  unfold securityHandshake38
  rw [hr]
  simp only [hbuf, binaryReadU8, if_true, ReadU32String_whole l0 l1 l2 l3 reason tail hlen hne]
  exact ⟨_, rfl, rfl⟩

theorem negotiate_33_iff (v : GoString) :
    negotiate v = RfbProtoVer_3_3 ↔ v ∉ [str "003.007", str "003.008", str "003.889"] := by
  unfold negotiate RfbProtoVer_3_3 RfbProtoVer_3_7 RfbProtoVer_3_8 RfbProtoVer_3_889
  by_cases h1 : v = str "003.003"
  · subst h1; decide
  · by_cases h2 : v = str "003.007"
    · subst h2; decide
    · by_cases h3 : v = str "003.008"
      · subst h3; decide
      · by_cases h4 : v = str "003.889"
        · subst h4; decide
        · simp [h1, h2, h3, h4]

/-- C6: with a negotiated version other than 003.003 and the security message delivered
by one read: a count byte 0 followed by a big-endian u32 length and that many reason
bytes (within the 512 bytes a read returns) makes DoHandshake return the error
"SecurityHandshakeOptions: no security types returned: " followed by the reason bytes,
SecurityTypes untouched; a count N >= 1 followed by N type bytes makes it succeed with
SecurityTypes the N bytes in wire order. -/
theorem DoHandshake_security_types (client : Client) (conn : Conn) (banner msg : List Byte)
    (rest : List ReadEvent) (hconn : client.Conn = some conn)
    (hin : conn.incoming = .data banner :: .data msg :: rest)
    (hw : conn.writeErrs.headD none = none)
    (hlen : banner.length = 12) (hpre : banner.take 4 = str "RFB ")
    (hver : (banner.drop 4).take 7 ∈ [str "003.007", str "003.008", str "003.889"]) :
    (∀ (l0 l1 l2 l3 : Byte) (reason extra : List Byte),
      msg = 0 :: l0 :: l1 :: l2 :: l3 :: reason ++ extra →
      l0.val * 2 ^ 24 + l1.val * 2 ^ 16 + l2.val * 2 ^ 8 + l3.val = reason.length →
      5 + reason.length ≤ 512 →
      ∃ client', DoHandshake client = some (client',
          some (str "SecurityHandshakeOptions: no security types returned: " ++ reason))
        ∧ client'.SecurityTypes = client.SecurityTypes) ∧
    (∀ (N : Byte) (types extra : List Byte),
      msg = N :: types ++ extra → N ≠ 0 → types.length = N.val →
      ∃ client', DoHandshake client = some (client', none)
        ∧ client'.SecurityTypes = types ∧ client'.SecurityTypes.length = N.val) := by
  have hneg : ¬ negotiate ((banner.drop 4).take 7) = RfbProtoVer_3_3 := by
    rw [negotiate_33_iff]; exact fun h => h hver
  have hstep := DoHandshake_after_banner client conn banner (.data msg :: rest) hconn hin hlen hpre
  rw [hw] at hstep
  simp only [hneg, if_false] at hstep
  rw [hstep]
  constructor
  · intro l0 l1 l2 l3 reason extra hmsg hl hfit
    subst hmsg
    exact securityHandshake38_reason (afterBanner client conn banner _) _ l0 l1 l2 l3 reason
      extra rest rfl rfl hl hfit
  · intro N types extra hmsg hN hl
    subst hmsg
    obtain ⟨client', h, ht⟩ := securityHandshake38_types (afterBanner client conn banner _) _ N
      types extra rest rfl rfl hN hl
    exact ⟨client', h, ht, by rw [ht, hl]⟩

theorem read_makeBytes (client : Client) (conn : Conn) (bs : List Byte) (k : Nat)
    (rest : List ReadEvent) (hconn : client.Conn = some conn)
    (hin : conn.incoming = .data bs :: rest) :
    client.read (makeBytes k)
      = some (afterRead client conn bs k rest, copyInto (makeBytes k) bs, min bs.length k, none) := by
  rw [read_data client conn bs (makeBytes k) rest hconn hin, makeBytes_length]
  rfl

/-- The 3.3 branch on a message whose first four bytes are `t0 t1 t2 t3`. -/
theorem securityHandshake33_parse (client : Client) (conn : Conn) (t0 t1 t2 t3 : Byte)
    (more : List Byte) (rest : List ReadEvent) (hconn : client.Conn = some conn)
    (hin : conn.incoming = .data (t0 :: t1 :: t2 :: t3 :: more) :: rest) :
    ∃ tail, tail.length = 508 ∧
      copyInto (makeBytes 512) (t0 :: t1 :: t2 :: t3 :: more) = t0 :: t1 :: t2 :: t3 :: tail ∧
      securityHandshake33 client =
        if ByteOrder.BigEndian.Uint32 [t0, t1, t2, t3] > 255 then
          some (afterRead client conn (t0 :: t1 :: t2 :: t3 :: more) 512 rest, some (str
            "SecurityHandshakeOptions: security type is too large (expected <=255, got "
            ++ fmtD (ByteOrder.BigEndian.Uint32 [t0, t1, t2, t3]) ++ str ")"))
        else if ByteOrder.BigEndian.Uint32 [t0, t1, t2, t3] = 0 then
          some (afterRead client conn (t0 :: t1 :: t2 :: t3 :: more) 512 rest,
            some (str "SecurityHandshakeOptions: no security type returned: " ++
              (match ReadU32String tail .BigEndian with
                | (_, _, some _) => str "<failed to get error reason from server>"
                | (_, reasonMsg, none) => reasonMsg)))
        else
          some ({ afterRead client conn (t0 :: t1 :: t2 :: t3 :: more) 512 rest with
            SecurityTypes :=
              [⟨ByteOrder.BigEndian.Uint32 [t0, t1, t2, t3] % 256, Nat.mod_lt _ (by decide)⟩] },
            none) := by
  obtain ⟨tail, hbuf, htail⟩ := copyInto_makeBytes 512 [t0, t1, t2, t3] more (by simp)
  have hr := read_makeBytes client conn (t0 :: t1 :: t2 :: t3 :: more) 512 rest hconn hin
  simp only [List.cons_append, List.nil_append] at hbuf
  refine ⟨tail, by simpa using htail, hbuf, ?_⟩
  unfold securityHandshake33
  rw [hr]
  simp only [hbuf, binaryReadU32_cons]

/-- C7, amended: with negotiated version 003.003 (the server announced 003.003 or a
version that is not recognised) and a security message, returned by the read, whose first
four bytes decode big-endian to T: T > 255 makes DoHandshake fail (the error names T);
T = 0 followed by a length-prefixed reason of at most 504 bytes (the message fits the
512 bytes the one read takes) makes it fail with
"SecurityHandshakeOptions: no security type returned: " and the reason bytes;
1 <= T <= 255 makes it succeed with SecurityTypes the singleton [T]. A failure leaves
SecurityTypes untouched. -/
theorem DoHandshake_security_type_33 (client : Client) (conn : Conn) (banner : List Byte)
    (t0 t1 t2 t3 : Byte) (more : List Byte) (rest : List ReadEvent) (T : Nat)
    (hconn : client.Conn = some conn)
    (hin : conn.incoming = .data banner :: .data (t0 :: t1 :: t2 :: t3 :: more) :: rest)
    (hw : conn.writeErrs.headD none = none)
    (hlen : banner.length = 12) (hpre : banner.take 4 = str "RFB ")
    (hver : (banner.drop 4).take 7 ∉ [str "003.007", str "003.008", str "003.889"])
    (hT : T = t0.val * 2 ^ 24 + t1.val * 2 ^ 16 + t2.val * 2 ^ 8 + t3.val) :
    (255 < T →
      ∃ client', DoHandshake client = some (client', some (str
          "SecurityHandshakeOptions: security type is too large (expected <=255, got "
          ++ fmtD T ++ str ")"))
        ∧ client'.SecurityTypes = client.SecurityTypes) ∧
    (T = 0 → ∀ (l0 l1 l2 l3 : Byte) (reason extra : List Byte),
      more = l0 :: l1 :: l2 :: l3 :: reason ++ extra →
      l0.val * 2 ^ 24 + l1.val * 2 ^ 16 + l2.val * 2 ^ 8 + l3.val = reason.length →
      8 + reason.length ≤ 512 →
      ∃ client', DoHandshake client = some (client',
          some (str "SecurityHandshakeOptions: no security type returned: " ++ reason))
        ∧ client'.SecurityTypes = client.SecurityTypes) ∧
    (1 ≤ T → T ≤ 255 →
      ∃ client', DoHandshake client = some (client', none)
        ∧ client'.SecurityTypes.map Fin.val = [T]) := by
  have hneg : negotiate ((banner.drop 4).take 7) = RfbProtoVer_3_3 :=
    (negotiate_33_iff _).mpr hver
  have hstep := DoHandshake_after_banner client conn banner
    (.data (t0 :: t1 :: t2 :: t3 :: more) :: rest) hconn hin hlen hpre
  rw [hw] at hstep
  simp only [hneg, if_true] at hstep
  obtain ⟨tail, htail, hbuf, hparse⟩ := securityHandshake33_parse
    (afterBanner client conn banner _) _ t0 t1 t2 t3 more rest rfl rfl
  rw [Uint32_big, ← hT] at hparse
  rw [hstep, hparse]
  refine ⟨?_, ?_, ?_⟩
  · intro hbig
    rw [if_pos hbig]
    exact ⟨_, rfl, rfl⟩
  · intro hzero l0 l1 l2 l3 reason extra hmore hl hfit
    have hnot : ¬ T > 255 := by omega
    rw [if_neg hnot, if_pos hzero]
    subst hmore
    obtain ⟨tail', hbuf', htail'⟩ := copyInto_makeBytes 512
      (t0 :: t1 :: t2 :: t3 :: l0 :: l1 :: l2 :: l3 :: reason) extra (by simp; omega)
    simp only [List.cons_append] at hbuf' hbuf
    rw [hbuf] at hbuf'
    have htl : tail = l0 :: l1 :: l2 :: l3 :: (reason ++ tail') := by
      simpa using hbuf'
    have hne : (reason ++ tail').length ≠ 0 := by
      have : (reason ++ tail').length = 504 := by
        have := congrArg List.length htl
        simp only [List.length_cons] at this
        omega
      omega
    rw [htl, ReadU32String_whole l0 l1 l2 l3 reason tail' hl hne]
    exact ⟨_, rfl, rfl⟩
  · intro h1 h255
    have hnot : ¬ T > 255 := by omega
    have hnz : ¬ T = 0 := by omega
    rw [if_neg hnot, if_neg hnz]
    exact ⟨_, rfl, by simp [Nat.mod_eq_of_lt (by omega : T < 256)]⟩

/-! ## The security result -/

/-- What `readSecurityResult` returns on a message of at least four bytes, by the
status code its first four bytes carry. -/
theorem readSecurityResult_parse (client : Client) (conn : Conn) (s0 s1 s2 s3 : Byte)
    (more : List Byte) (rest : List ReadEvent) (hconn : client.Conn = some conn)
    (hin : conn.incoming = .data (s0 :: s1 :: s2 :: s3 :: more) :: rest) :
    ∃ tail, tail.length = 508 ∧
      copyInto (makeBytes 512) (s0 :: s1 :: s2 :: s3 :: more) = s0 :: s1 :: s2 :: s3 :: tail ∧
      readSecurityResult client =
        (let client₁ := afterRead client conn (s0 :: s1 :: s2 :: s3 :: more) 512 rest
         let status :=
           if client.ServerProtoVer = str "003.889" then
             s0.val + s1.val * 2 ^ 8 + s2.val * 2 ^ 16 + s3.val * 2 ^ 24
           else s0.val * 2 ^ 24 + s1.val * 2 ^ 16 + s2.val * 2 ^ 8 + s3.val
         if status = 0 then
           some ({ client₁ with SecurityResult := { client.SecurityResult with Success := true } },
             none)
         else if status = 1 then
           some ({ client₁ with SecurityResult :=
             { client.SecurityResult with Reason := (ReadU32String tail .BigEndian).2.1 } }, none)
         else
           some (client₁, some (str
             "SecurityResult: invalid status code: expected [0, 1], got (" ++ fmtD status
               ++ str ")"))) := by
  obtain ⟨tail, hbuf, htail⟩ := copyInto_makeBytes 512 [s0, s1, s2, s3] more (by simp)
  have hr := read_makeBytes client conn (s0 :: s1 :: s2 :: s3 :: more) 512 rest hconn hin
  simp only [List.cons_append, List.nil_append] at hbuf
  refine ⟨tail, by simpa using htail, hbuf, ?_⟩
  unfold readSecurityResult
  rw [hr]
  simp only [hbuf, binaryReadU32_cons]
  have hver : (afterRead client conn (s0 :: s1 :: s2 :: s3 :: more) 512 rest).ServerProtoVer
      = client.ServerProtoVer := rfl
  rw [hver]
  by_cases h889 : client.ServerProtoVer = str "003.889"
  · have h889' : client.ServerProtoVer = RfbProtoVer_3_889 := h889
    simp only [h889', if_true, Uint32_little]
    rw [← h889'] 
    simp only [h889, if_true]
    rfl
  · have h889' : ¬ client.ServerProtoVer = RfbProtoVer_3_889 := h889
    simp only [h889', if_false, Uint32_big, h889]
    rfl

/-- The reason string that follows a status code, when the message fits the read. -/
theorem reason_of_tail (s0 s1 s2 s3 l0 l1 l2 l3 : Byte) (r extra tail : List Byte)
    (hbuf : copyInto (makeBytes 512)
        (s0 :: s1 :: s2 :: s3 :: l0 :: l1 :: l2 :: l3 :: r ++ extra)
      = s0 :: s1 :: s2 :: s3 :: tail)
    (hl : l0.val * 2 ^ 24 + l1.val * 2 ^ 16 + l2.val * 2 ^ 8 + l3.val = r.length)
    (hfit : 8 + r.length ≤ 512) :
    (ReadU32String tail .BigEndian).2.1 = r := by
  obtain ⟨tail', hbuf', htail'⟩ := copyInto_makeBytes 512
    (s0 :: s1 :: s2 :: s3 :: l0 :: l1 :: l2 :: l3 :: r) extra (by simp; omega)
  simp only [List.cons_append] at hbuf' hbuf
  rw [hbuf] at hbuf'
  have htl : tail = l0 :: l1 :: l2 :: l3 :: (r ++ tail') := by simpa using hbuf'
  have hne : (r ++ tail').length ≠ 0 := by
    simp only [List.length_cons, List.length_append] at htail' ⊢
    omega
  rw [htl, ReadU32String_whole l0 l1 l2 l3 r tail' hl hne]

/-- C2, amended: for a fresh session and a message, returned by the read, that carries a
full status code (decoded in the byte order of the announced version): status 0 gives no
error and SecurityResult {Success: true, Reason: ""}; status 1 followed by a
length-prefixed string r of at most 504 bytes (the message fits the 512 bytes the one
read takes) gives no error and {Success: false, Reason: r}, the empty r included; any
other status gives an error and leaves SecurityResult as it was. -/
theorem readSecurityResult_status (client : Client) (conn : Conn) (s0 s1 s2 s3 : Byte)
    (more : List Byte) (rest : List ReadEvent) (status : Nat)
    (hconn : client.Conn = some conn)
    (hin : conn.incoming = .data (s0 :: s1 :: s2 :: s3 :: more) :: rest)
    (hfresh : client.SecurityResult = ⟨false, []⟩)
    (hstatus : status =
      if client.ServerProtoVer = str "003.889" then
        s0.val + s1.val * 2 ^ 8 + s2.val * 2 ^ 16 + s3.val * 2 ^ 24
      else s0.val * 2 ^ 24 + s1.val * 2 ^ 16 + s2.val * 2 ^ 8 + s3.val) :
    (status = 0 →
      ∃ client', readSecurityResult client = some (client', none)
        ∧ client'.SecurityResult = ⟨true, []⟩) ∧
    (status = 1 → ∀ (l0 l1 l2 l3 : Byte) (r extra : List Byte),
      more = l0 :: l1 :: l2 :: l3 :: r ++ extra →
      l0.val * 2 ^ 24 + l1.val * 2 ^ 16 + l2.val * 2 ^ 8 + l3.val = r.length →
      8 + r.length ≤ 512 →
      ∃ client', readSecurityResult client = some (client', none)
        ∧ client'.SecurityResult = ⟨false, r⟩) ∧
    (status ≠ 0 → status ≠ 1 →
      ∃ client' err, readSecurityResult client = some (client', some err)
        ∧ client'.SecurityResult = client.SecurityResult) := by
  obtain ⟨tail, -, hbuf, hparse⟩ :=
    readSecurityResult_parse client conn s0 s1 s2 s3 more rest hconn hin
  simp only [← hstatus] at hparse
  rw [hparse]
  refine ⟨?_, ?_, ?_⟩
  · intro h0
    rw [if_pos h0]
    exact ⟨_, rfl, by simp [hfresh]⟩
  · intro h1 l0 l1 l2 l3 r extra hmore hl hfit
    have h0 : ¬ status = 0 := by omega
    rw [if_neg h0, if_pos h1]
    subst hmore
    refine ⟨_, rfl, ?_⟩
    simp only [hfresh, reason_of_tail s0 s1 s2 s3 l0 l1 l2 l3 r extra tail hbuf hl hfit]
  · intro h0 h1
    rw [if_neg h0, if_neg h1]
    exact ⟨_, _, rfl, rfl⟩

/-- C3: the four status bytes b0 b1 b2 b3 are decoded little-endian
(b0 + b1*2^8 + b2*2^16 + b3*2^24) exactly when ServerProtoVer is "003.889" and
big-endian (b0*2^24 + b1*2^16 + b2*2^8 + b3) for every other announced version; the
length prefix l0 l1 l2 l3 of the reason is decoded big-endian in both cases. -/
theorem readSecurityResult_byte_order (client : Client) (conn : Conn)
    (b0 b1 b2 b3 l0 l1 l2 l3 : Byte) (r extra : List Byte) (rest : List ReadEvent)
    (hconn : client.Conn = some conn)
    (hin : conn.incoming
      = .data (b0 :: b1 :: b2 :: b3 :: l0 :: l1 :: l2 :: l3 :: r ++ extra) :: rest)
    (hl : l0.val * 2 ^ 24 + l1.val * 2 ^ 16 + l2.val * 2 ^ 8 + l3.val = r.length)
    (hfit : 8 + r.length ≤ 512) :
    (client.ServerProtoVer = str "003.889" →
      DecodesStatusAs client (b0.val + b1.val * 2 ^ 8 + b2.val * 2 ^ 16 + b3.val * 2 ^ 24) r) ∧
    (client.ServerProtoVer ≠ str "003.889" →
      DecodesStatusAs client (b0.val * 2 ^ 24 + b1.val * 2 ^ 16 + b2.val * 2 ^ 8 + b3.val) r) := by
  obtain ⟨tail, -, hbuf, hparse⟩ := readSecurityResult_parse client conn b0 b1 b2 b3
    (l0 :: l1 :: l2 :: l3 :: r ++ extra) rest hconn hin
  have hreason := reason_of_tail b0 b1 b2 b3 l0 l1 l2 l3 r extra tail hbuf hl hfit
  rw [hreason] at hparse
  constructor
  · intro hv
    simp only [hv, if_true] at hparse
    unfold DecodesStatusAs
    rw [hparse]
    by_cases h0 : b0.val + b1.val * 2 ^ 8 + b2.val * 2 ^ 16 + b3.val * 2 ^ 24 = 0
    · simp only [h0, if_true, true_or]
      exact ⟨_, rfl, rfl⟩
    · by_cases h1 : b0.val + b1.val * 2 ^ 8 + b2.val * 2 ^ 16 + b3.val * 2 ^ 24 = 1
      · simp only [h1, if_true, or_true, one_ne_zero, if_false]
        exact ⟨_, rfl, rfl⟩
      · simp only [h0, h1, if_false, or_self]
        exact ⟨_, rfl, rfl⟩
  · intro hv
    simp only [hv, if_false] at hparse
    unfold DecodesStatusAs
    rw [hparse]
    by_cases h0 : b0.val * 2 ^ 24 + b1.val * 2 ^ 16 + b2.val * 2 ^ 8 + b3.val = 0
    · simp only [h0, if_true, true_or]
      exact ⟨_, rfl, rfl⟩
    · by_cases h1 : b0.val * 2 ^ 24 + b1.val * 2 ^ 16 + b2.val * 2 ^ 8 + b3.val = 1
      · simp only [h1, if_true, or_true, one_ne_zero, if_false]
        exact ⟨_, rfl, rfl⟩
      · simp only [h0, h1, if_false, or_self]
        exact ⟨_, rfl, rfl⟩

/-! ## The Basic submission -/

theorem authChallenge_writes (des : BlockCipher) (client : Client) (conn : Conn)
    (c : List Byte) (rest : List ReadEvent) (password : GoString)
    (hconn : client.Conn = some conn) (hin : conn.incoming = .data c :: rest)
    (hc : c.length = 16) :
    ∃ client' err conn', authChallenge des client password = some (client', err) ∧
      client'.Conn = some conn' ∧
      conn'.sent = conn.sent ++
        (if c = List.replicate 16 0 then []
         else [des.encrypt (desKey password) (c.take 8)
                ++ des.encrypt (desKey password) (c.drop 8)]) ∧
      (c = List.replicate 16 0 → err = some (str
        "BasicAuthChallenge: server is likely a honeypot, DES challenge is all 0s")) := by
  have hbuf : copyInto (makeBytes 16) c = c := hc ▸ copyInto_exact c
  have hr := read_makeBytes client conn c 16 rest hconn hin
  have htake : c.take 16 = c := List.take_of_length_le (by omega)
  have hdrop : (c.drop 8).take 8 = c.drop 8 :=
    List.take_of_length_le (by simp [List.length_drop]; omega)
  have hzeros : ([0, 0, 0, 0, 0, 0, 0, 0, 0, 0, 0, 0, 0, 0, 0, 0] : List Byte)
      = List.replicate 16 0 := by decide
  have hkey : (desKey password).length = 8 := desKey_length password
  unfold authChallenge
  rw [hr]
  simp only [hbuf, hc, min_self, lt_irrefl, if_false, htake, hzeros, hkey, ne_eq,
    not_true_eq_false, hdrop]
  by_cases hz : c = List.replicate 16 0
  · simp only [hz, if_true, List.append_nil]
    exact ⟨_, _, _, rfl, rfl, rfl, fun _ => rfl⟩
  · simp only [hz, if_false]
    obtain ⟨conn₂, n, err, hwr, hsent, -, -, -⟩ :=
      write_frame (afterRead client conn c 16 rest) _
        (des.encrypt (desKey password) (c.take 8) ++ des.encrypt (desKey password) (c.drop 8))
        rfl
    rw [hwr]
    cases err with
    | some e => exact ⟨_, _, conn₂, rfl, rfl, hsent, fun h => h.elim⟩
    | none =>
      obtain ⟨client', err', hres, -, -, conn₃, hc₃, hs₃⟩ :=
        readSecurityResult_frame
          { afterRead client conn c 16 rest with Conn := some conn₂ } conn₂ rfl
      exact ⟨client', err', conn₃, hres, hc₃, hs₃.trans hsent, fun h => h.elim⟩

/-- C10: with the 16-byte challenge c delivered by the read, the payloads SubmitAuthBasic
hands to Write are: the selector [0x02] iff the version is not 003.003; then nothing
more and the honeypot error when c is all zeros, and otherwise exactly one payload, the
16 bytes E_k(c[0..8]) ++ E_k(c[8..16]) with k the derived key, the two blocks
encrypted independently. -/
theorem SubmitAuthBasic_writes (des : BlockCipher) (client : Client) (conn : Conn)
    (c : List Byte) (rest : List ReadEvent) (password : GoString)
    (hconn : client.Conn = some conn) (hin : conn.incoming = .data c :: rest)
    (hc : c.length = 16)
    (hw : client.ProtoVer ≠ str "003.003" → conn.writeErrs.headD none = none) :
    ∃ client' err conn', SubmitAuthBasic des client password = some (client', err) ∧
      client'.Conn = some conn' ∧
      conn'.sent = conn.sent
        ++ (if client.ProtoVer ≠ str "003.003" then [[2]] else [])
        ++ (if c = List.replicate 16 0 then []
            else [des.encrypt (desKey password) (c.take 8)
                   ++ des.encrypt (desKey password) (c.drop 8)]) ∧
      (c = List.replicate 16 0 → err = some (str
        "BasicAuthChallenge: server is likely a honeypot, DES challenge is all 0s")) ∧
      (des.encrypt (desKey password) (c.take 8)
        ++ des.encrypt (desKey password) (c.drop 8)).length = 16 := by
  have hlen16 : (des.encrypt (desKey password) (c.take 8)
      ++ des.encrypt (desKey password) (c.drop 8)).length = 16 := by
    simp [des.encrypt_length]
  unfold SubmitAuthBasic
  by_cases hv : client.ProtoVer = str "003.003"
  · have hv' : client.ProtoVer = RfbProtoVer_3_3 := hv
    simp only [hv', ne_eq, not_true_eq_false, if_false]
    obtain ⟨client', err, conn', h, hc', hs, hz⟩ :=
      authChallenge_writes des client conn c rest password hconn hin hc
    refine ⟨client', err, conn', h, hc', ?_, hz, hlen16⟩
    have : RfbProtoVer_3_3 = str "003.003" := rfl
    simp only [hs, this, not_true_eq_false, if_false, List.append_nil]
  · have hv' : ¬ client.ProtoVer = RfbProtoVer_3_3 := hv
    simp only [ne_eq, hv', not_false_eq_true, if_true]
    obtain ⟨conn₁, n, werr, hwr, hsent, hinc, -, hok⟩ := write_frame client conn [VncAuthBasic] hconn
    have hnone : werr = none := hok (hw hv)
    subst hnone
    rw [hwr]
    obtain ⟨client', err, conn', h, hc', hs, hz⟩ :=
      authChallenge_writes des { client with Conn := some conn₁ } conn₁ c rest password rfl
        (hinc.trans hin) hc
    refine ⟨client', err, conn', h, hc', ?_, hz, hlen16⟩
    simp only [hs, hsent, hv, not_false_eq_true, if_true]
    rfl

theorem DoHandshake_banner_witness :
    ∃ client' err,
      DoHandshake (sampleClient (sampleConn [.data (str "RFB 003.008\n"), .data [1, 2]]))
        = some (client', err) ∧
      client'.ServerProtoVer = str "003.008" ∧ client'.ProtoVer = str "003.008" := by
  obtain ⟨client', err, h, hs, hp⟩ :=
    (DoHandshake_banner
      (sampleClient (sampleConn [.data (str "RFB 003.008\n"), .data [1, 2]]))
      (sampleConn [.data (str "RFB 003.008\n"), .data [1, 2]])
      (str "RFB 003.008\n") [.data [1, 2]] rfl rfl).1 (by decide) (by decide)
  exact ⟨client', err, h, by rw [hs]; decide, by rw [hp]; decide⟩

theorem DoHandshake_version_message_witness :
    ∃ client' err conn',
      DoHandshake (sampleClient (sampleConn [.data (str "RFB 003.007\n"), .data [1, 2]]))
        = some (client', err) ∧
      client'.Conn = some conn' ∧
      conn'.sent = [] ++ [str "RFB " ++ client'.ProtoVer ++ str "\n"] ∧
      (str "RFB " ++ client'.ProtoVer ++ str "\n").length = 12 :=
  DoHandshake_version_message
    (sampleClient (sampleConn [.data (str "RFB 003.007\n"), .data [1, 2]]))
    (sampleConn [.data (str "RFB 003.007\n"), .data [1, 2]])
    (str "RFB 003.007\n") [.data [1, 2]] rfl rfl (by decide) (by decide)

set_option maxRecDepth 100000 in
/-- C9 as stated fails: against a 3.7 server the handshake succeeds and the one payload
it wrote, the version message "RFB 003.007\n", has 12 bytes, not 13. -/
theorem DoHandshake_version_message_not_13 :
    (DoHandshake (sampleClient (sampleConn [.data (str "RFB 003.007\n"), .data [1, 2]]))).map
        (fun r => (r.2, r.1.ProtoVer, r.1.Conn.map (fun c => c.sent)))
      = some (none, str "003.007", some [str "RFB " ++ str "003.007" ++ str "\n"]) ∧
    (str "RFB " ++ str "003.007" ++ str "\n").length = 12 ∧
    (str "RFB " ++ str "003.007" ++ str "\n").length ≠ 13 := by
  refine ⟨by rfl, by decide, by decide⟩

theorem readSecurityResult_status_witness :
    ∃ client',
      readSecurityResult (sampleClient (sampleConn [.data [0, 0, 0, 1, 0, 0, 0, 2, 110, 111]]))
        = some (client', none) ∧
      client'.SecurityResult = ⟨false, str "no"⟩ :=
  (readSecurityResult_status
    (sampleClient (sampleConn [.data [0, 0, 0, 1, 0, 0, 0, 2, 110, 111]]))
    (sampleConn [.data [0, 0, 0, 1, 0, 0, 0, 2, 110, 111]])
    0 0 0 1 [0, 0, 0, 2, 110, 111] [] 1 rfl rfl rfl (by decide)).2.1 rfl
    0 0 0 2 (str "no") [] (by decide) (by decide) (by decide)

set_option maxRecDepth 1000000 in
/-- C2 as stated fails: the server answers with status 1 and a reason r of 505 bytes "a"
(length prefix 00 00 01 f9). The one read takes 512 bytes, the status, the length and
504 bytes of r; the call returns no error, and the reason it stores is those 504 bytes
and a zero byte, not r. -/
theorem readSecurityResult_long_reason :
    (0 * 2 ^ 24 + 0 * 2 ^ 16 + 1 * 2 ^ 8 + 249 = (List.replicate 505 (97 : Byte)).length) ∧
    (readSecurityResult (sampleClient (sampleConn
        [.data ([0, 0, 0, 1, 0, 0, 1, 249] ++ List.replicate 505 97)]))).map
        (fun out => (out.2, out.1.SecurityResult))
      = some (none, ⟨false, List.replicate 504 97 ++ [0]⟩) ∧
    List.replicate 504 97 ++ [0] ≠ (List.replicate 505 97 : List Byte) := by
  refine ⟨by decide, by rfl, by decide⟩

/-- The example of C3: announced version 003.889 and the bytes 01 00 00 00 00 00 00 00
give no error, Success = false and an empty reason. -/
theorem readSecurityResult_byte_order_witness :
    ∃ client',
      readSecurityResult
        { sampleClient (sampleConn [.data [1, 0, 0, 0, 0, 0, 0, 0]]) with
          ServerProtoVer := str "003.889" } = some (client', none) ∧
      client'.SecurityResult = ⟨false, []⟩ := by
  obtain ⟨client', h, hs⟩ :=
    (readSecurityResult_byte_order
      { sampleClient (sampleConn [.data [1, 0, 0, 0, 0, 0, 0, 0]]) with
        ServerProtoVer := str "003.889" }
      (sampleConn [.data [1, 0, 0, 0, 0, 0, 0, 0]])
      1 0 0 0 0 0 0 0 [] [] [] rfl rfl (by decide) (by decide)).1 rfl
  exact ⟨client', h, hs⟩

theorem DoHandshake_security_types_witness :
    ∃ client',
      DoHandshake (sampleClient (sampleConn [.data (str "RFB 003.008\n"), .data [2, 2, 16]]))
        = some (client', none) ∧
      client'.SecurityTypes = [2, 16] ∧ client'.SecurityTypes.length = 2 :=
  (DoHandshake_security_types
    (sampleClient (sampleConn [.data (str "RFB 003.008\n"), .data [2, 2, 16]]))
    (sampleConn [.data (str "RFB 003.008\n"), .data [2, 2, 16]])
    (str "RFB 003.008\n") [2, 2, 16] [] rfl rfl rfl (by decide) (by decide) (by decide)).2
    2 [2, 16] [] rfl (by decide) rfl

theorem DoHandshake_security_type_33_witness :
    ∃ client',
      DoHandshake (sampleClient (sampleConn [.data (str "RFB 003.003\n"), .data [0, 0, 0, 2]]))
        = some (client', none) ∧
      client'.SecurityTypes.map Fin.val = [2] :=
  (DoHandshake_security_type_33
    (sampleClient (sampleConn [.data (str "RFB 003.003\n"), .data [0, 0, 0, 2]]))
    (sampleConn [.data (str "RFB 003.003\n"), .data [0, 0, 0, 2]])
    (str "RFB 003.003\n") 0 0 0 2 [] [] 2 rfl rfl rfl (by decide) (by decide) (by decide)
    (by decide)).2.2 (by decide) (by decide)

set_option maxRecDepth 1000000 in
/-- C7 as stated fails: a 3.3 server sends T = 0 and a reason of 505 bytes "a" (length
prefix 00 00 01 f9). The one read takes 512 bytes, so DoHandshake fails with a text that
carries 504 bytes of the reason and a zero byte: the text does not end in the reason. -/
theorem DoHandshake_security_type_33_long_reason :
    (0 * 2 ^ 24 + 0 * 2 ^ 16 + 1 * 2 ^ 8 + 249 = (List.replicate 505 (97 : Byte)).length) ∧
    (DoHandshake (sampleClient (sampleConn [.data (str "RFB 003.003\n"),
        .data ([0, 0, 0, 0, 0, 0, 1, 249] ++ List.replicate 505 97)]))).map
        (fun out => (out.2, out.1.ProtoVer, out.1.SecurityTypes))
      = some (some (str "SecurityHandshakeOptions: no security type returned: "
          ++ (List.replicate 504 97 ++ [0])), str "003.003", []) ∧
    ¬ ((List.replicate 505 97 : List Byte) <:+
        str "SecurityHandshakeOptions: no security type returned: "
          ++ (List.replicate 504 97 ++ [0])) := by
  refine ⟨by decide, by rfl, by decide⟩

theorem SubmitAuthBasic_writes_witness :
    ∃ client' err conn',
      SubmitAuthBasic sampleDes
        (sampleAfterHandshake (sampleConn [.data sampleChallenge, .data [0, 0, 0, 0]]))
        (str "secret") = some (client', err) ∧
      client'.Conn = some conn' ∧
      conn'.sent = [[2], sampleDes.encrypt (desKey (str "secret")) (sampleChallenge.take 8)
          ++ sampleDes.encrypt (desKey (str "secret")) (sampleChallenge.drop 8)] := by
  obtain ⟨client', err, conn', h, hc, hs, -, -⟩ :=
    SubmitAuthBasic_writes sampleDes
      (sampleAfterHandshake (sampleConn [.data sampleChallenge, .data [0, 0, 0, 0]]))
      (sampleConn [.data sampleChallenge, .data [0, 0, 0, 0]])
      sampleChallenge [.data [0, 0, 0, 0]] (str "secret") rfl rfl (by decide) (fun _ => rfl)
  refine ⟨client', err, conn', h, hc, ?_⟩
  rw [hs]
  have h1 : (sampleAfterHandshake
      (sampleConn [.data sampleChallenge, .data [0, 0, 0, 0]])).ProtoVer ≠ str "003.003" := by
    decide
  have h2 : sampleChallenge ≠ List.replicate 16 0 := by decide
  simp only [h1, h2, ne_eq, not_false_eq_true, if_true, if_false]
  rfl

set_option maxRecDepth 100000 in
/-- C4 fails on the code: the read delivers the single byte 0x00; the status code is
decoded from the zero-filled 512-byte scratch buffer, so the call returns no error and
sets Success to true instead of failing with "packet too small". -/
theorem readSecurityResult_short_read_succeeds :
    (readSecurityResult (sampleClient (sampleConn [.data [0]]))).map
        (fun r => (r.2, r.1.SecurityResult))
      = some (none, ⟨true, []⟩) := by
  rfl

/-- Every way out of an attempt other than the `break` of line 288 passes through
`client.Kill()`; the `break` does not. -/
theorem workerAttempt_kill (des : BlockCipher) (addr : GoString) (pool : Option Pool)
    (dial : Except Error Conn) (closed : Bool) (pw : GoString) (a : Attempt)
    (h : workerAttempt des addr pool dial closed pw = some a) :
    (a.flow ≠ .broke → Event.kill ∈ a.events) ∧ (a.flow = .broke → Event.kill ∉ a.events) := by
  unfold workerAttempt at h
  simp only at h
  split at h
  · cases h
  · cases h; simp [endOfAttempt]
  · split at h
    · cases h; simp [endOfAttempt]
    · split at h
      · cases h
      · cases h; simp [endOfAttempt]
      · unfold authDispatch at h
        split at h
        · cases h; simp [foundPwFunc]
        · split at h
          · split at h
            · cases h
            · cases h; simp [endOfAttempt]
            · split at h
              · cases h; simp [foundPwFunc]
              · split at h
                · split at h
                  · cases h
                  · cases h; simp
                · cases h; simp
          · cases h; simp [endOfAttempt]

set_option maxRecDepth 100000 in
/-- C5 fails on the code: against a 3.8 server that offers Basic and answers the response
with status 1 (wrong password), the attempt leaves the loop by `break`: it never calls
Kill and the connection is still open. The reason is empty, so nothing is sent on
`newFailedMsgChan` and the state of that channel plays no part. -/
theorem workerAttempt_wrong_password_not_killed :
    ∀ failedMsgChanClosed : Bool,
      (workerAttempt sampleDes (str "10.0.0.1:5900") none
          (.ok (sampleConn [.data (str "RFB 003.008\n"), .data [1, 2], .data sampleChallenge,
            .data [0, 0, 0, 1, 0, 0, 0, 0]])) failedMsgChanClosed (str "secret")).map
          (fun a => (a.flow, a.nextErr, a.events, a.client.SecurityResult,
            a.client.Conn.map (fun c => c.closed)))
        = some (.broke, none, [], ⟨false, []⟩, some false) := by
  intro failedMsgChanClosed
  cases failedMsgChanClosed <;> rfl

/-! ## The proxy pool -/

theorem Pool_Get_at (P : List GoString) (j : Nat) (hj : j < P.length) :
    Pool.Get ⟨P, j⟩ = some (⟨P, (j + 1) % P.length⟩, P.getD j [], none) := by
  have hne : ¬ P.length = 0 := by omega
  unfold Pool.Get
  simp only [hne, if_false, hj, if_true]
  by_cases hlast : j = P.length - 1
  · have h0 : (j + 1) % P.length = 0 := by
      have : j + 1 = P.length := by omega
      rw [this, Nat.mod_self]
    rw [if_pos hlast, h0]
  · have : (j + 1) % P.length = j + 1 := Nat.mod_eq_of_lt (by omega)
    simp [hlast, this]

theorem getCalls_from (P : List GoString) :
    ∀ (m j : Nat), j < P.length →
      getCalls m ⟨P, j⟩ = some (⟨P, (j + m) % P.length⟩,
        (List.range m).map (fun t => (P.getD ((j + t) % P.length) [], none))) := by
  intro m
  induction m with
  | zero => intro j hj; simp [getCalls, Nat.mod_eq_of_lt hj]
  | succ m ih =>
    intro j hj
    have hn : 0 < P.length := by omega
    unfold getCalls
    rw [Pool_Get_at P j hj]
    simp only
    rw [ih ((j + 1) % P.length) (Nat.mod_lt _ hn)]
    simp only [Option.some.injEq, Prod.mk.injEq, Pool.mk.injEq, true_and]
    constructor
    · rw [Nat.mod_add_mod]; congr 1; omega
    · rw [List.range_succ_eq_map, List.map_cons, List.map_map]
      congr 1
      · simp [Nat.mod_eq_of_lt hj]
      · apply List.map_congr_left
        intro t _
        simp only [Function.comp, Prod.mk.injEq, and_true]
        rw [Nat.mod_add_mod]
        congr 2
        omega

theorem range_mod_cycles (P : List GoString) :
    ∀ k : Nat, (List.range (k * P.length)).map (fun t => P.getD (t % P.length) [])
      = (List.replicate k P).flatten := by
  intro k
  induction k with
  | zero => simp
  | succ k ih =>
    rw [Nat.succ_mul, List.range_add, List.map_append, ih, List.replicate_succ',
      List.flatten_append]
    congr 1
    simp only [List.map_map, List.flatten_cons, List.flatten_nil, List.append_nil]
    apply List.ext_getElem
    · simp
    · intro i h1 h2
      have hi : i < P.length := h2
      have hmod : (k * P.length + i) % P.length = i := by
        rw [Nat.add_comm, Nat.add_mul_mod_self_right, Nat.mod_eq_of_lt hi]
      simp [List.getD_eq_getElem?_getD, hmod, List.getElem?_eq_getElem hi]

/-- C13: for a fresh pool (index 0) with n >= 1 entries, the first i + 1 calls of Get
return the entries 0 mod n, 1 mod n, ..., i mod n without error, so the (i+1)-th call
returns entry i mod n, and leave the index at (i + 1) mod n, inside [0, n); k*n calls
return k copies of the entry list, one after the other; on a pool with no entries Get
returns an error and the pool is as before. -/
theorem Pool_Get_round_robin (P : List GoString) :
    (0 < P.length → ∀ i : Nat,
      getCalls (i + 1) ⟨P, 0⟩ = some (⟨P, (i + 1) % P.length⟩,
        (List.range (i + 1)).map (fun t => (P.getD (t % P.length) [], none))) ∧
      (i + 1) % P.length < P.length) ∧
    (0 < P.length → ∀ k : Nat, ∃ pool outs,
      getCalls (k * P.length) ⟨P, 0⟩ = some (pool, outs) ∧
      outs.map Prod.fst = (List.replicate k P).flatten ∧
      (∀ o ∈ outs, o.2 = none) ∧ pool = ⟨P, 0⟩) ∧
    (∀ index : Nat, ∃ err, Pool.Get ⟨[], index⟩ = some (⟨[], index⟩, [], some err)) := by
  refine ⟨?_, ?_, ?_⟩
  · intro hn i
    have h := getCalls_from P (i + 1) 0 hn
    simp only [Nat.zero_add] at h
    exact ⟨h, Nat.mod_lt _ hn⟩
  · intro hn k
    have h := getCalls_from P (k * P.length) 0 hn
    simp only [Nat.zero_add] at h
    refine ⟨_, _, h, ?_, ?_, ?_⟩
    · rw [List.map_map]
      exact range_mod_cycles P k
    · intro o ho
      obtain ⟨t, -, rfl⟩ := List.mem_map.mp ho
      rfl
    · simp
  · intro index
    exact ⟨str "no proxies available in the pool", by simp [Pool.Get]⟩

theorem Pool_Get_round_robin_witness :
    getCalls 3 ⟨[str "socks5://a", str "socks5://b"], 0⟩
      = some (⟨[str "socks5://a", str "socks5://b"], 1⟩,
          [(str "socks5://a", none), (str "socks5://b", none), (str "socks5://a", none)]) := by
  have h := ((Pool_Get_round_robin [str "socks5://a", str "socks5://b"]).1 (by decide) 2).1
  rw [h]
  decide

/-! ## The length-prefixed string -/

/-- C14 fails on the code: with length 3 and a single byte "a" left, ReadU32String returns
no error and the three bytes "a", 0, 0 (the claim: an error and only "a"); with length 0
and nothing left it returns the EOF error (the claim: no error); with length 2 and nothing
left it returns the error with two zero bytes (the claim: no bytes). -/
theorem ReadU32String_short :
    ReadU32String [0, 0, 0, 3, 97] .BigEndian = ([], [97, 0, 0], none) ∧
    ReadU32String [0, 0, 0, 0] .BigEndian = ([], [], some (str "EOF")) ∧
    ReadU32String [0, 0, 0, 2] .BigEndian = ([], [0, 0], some (str "EOF")) := by
  decide

theorem digits_length (n : Nat) : ∀ l k, (digits n l k).length = l := by
  intro l
  induction l with
  | zero => intro k; rfl
  | succ l ih => intro k; simp [digits, ih]

theorem digits_lt (n : Nat) (hn : 0 < n) : ∀ l k d, d ∈ digits n l k → d < n := by
  intro l
  induction l with
  | zero => intro k d hd; simp [digits] at hd
  | succ l ih =>
    intro k d hd
    simp only [digits, List.mem_append, List.mem_singleton] at hd
    rcases hd with hd | hd
    · exact ih _ _ hd
    · subst hd; exact Nat.mod_lt _ hn

theorem digits_zero (n : Nat) : ∀ l, digits n l 0 = List.replicate l 0 := by
  intro l
  induction l with
  | zero => rfl
  | succ l ih => simp [digits, ih, List.replicate_succ']

theorem take_succ_set_nat (l : List Nat) :
    ∀ (i : Nat) (t : Nat), i < l.length → (l.set i t).take (i + 1) = l.take i ++ [t] := by
  induction l with
  | nil => intro i t hi; simp at hi
  | cons a l ih =>
    intro i t hi
    cases i with
    | zero => simp
    | succ i => simp [ih i t (by simpa using hi)]

theorem resetFrom_eq (len : Nat) :
    ∀ (k j : Nat) (indices : List Nat), indices.length = len → j ≤ len → len - j ≤ k →
      resetFrom len k j indices = indices.take j ++ List.replicate (len - j) 0 := by
  intro k
  induction k with
  | zero =>
    intro j indices hl hj hk
    have : j = len := by omega
    subst this
    simp [resetFrom, ← hl]
  | succ k ih =>
    intro j indices hl hj hk
    unfold resetFrom
    by_cases hlt : j < len
    · rw [if_pos hlt, ih (j + 1) (indices.set j 0) (by simpa using hl) hlt (by omega),
        take_succ_set_nat indices j 0 (by omega)]
      have : len - j = (len - (j + 1)) + 1 := by omega
      rw [this, List.replicate_succ]
      simp
    · rw [if_neg hlt]
      have : j = len := by omega
      subst this
      simp [← hl]

/-- The advance of lines 50-61 in closed form. -/
theorem advance_some (numChars len : Nat) (indices : List Nat) (i : Nat)
    (hl : indices.length = len) (hi : i < len)
    (hs : scanBack numChars indices len = some i) :
    advance numChars len indices
      = some (indices.take i ++ [indices.getD i 0 + 1] ++ List.replicate (len - i - 1) 0) := by
  unfold advance
  rw [hs]
  simp only
  rw [resetFrom_eq len len (i + 1) _ (by simpa using hl) hi (by omega),
    take_succ_set_nat indices i _ (by omega)]
  rfl

theorem getD_append_left_nat (D suf : List Nat) (i d : Nat) (hi : i < D.length) :
    (D ++ suf).getD i d = D.getD i d := by
  simp [List.getD_eq_getElem?_getD, List.getElem?_append_left hi]

theorem getD_append_length_nat (D suf : List Nat) (x d : Nat) :
    (D ++ x :: suf).getD D.length d = x := by
  induction D with
  | nil => simp
  | cons a D ih => simpa using ih

theorem succ_div_mod_carry (n k : Nat) (h : k % n + 1 = n) :
    (k + 1) / n = k / n + 1 ∧ (k + 1) % n = 0 := by
  have hn : 0 < n := by omega
  have hk := Nat.div_add_mod k n
  apply (Nat.div_mod_unique hn).mpr
  constructor
  · rw [Nat.mul_succ]
    generalize n * (k / n) = q at hk
    omega
  · exact hn

theorem succ_div_mod_nocarry (n k : Nat) (hn : 0 < n) (h : k % n + 1 ≠ n) :
    (k + 1) / n = k / n ∧ (k + 1) % n = k % n + 1 := by
  have hk := Nat.div_add_mod k n
  have hlt := Nat.mod_lt k hn
  apply (Nat.div_mod_unique hn).mpr
  constructor
  · generalize n * (k / n) = q at hk
    omega
  · omega

/-- What the backward scan finds on the digits of `k`: the end of the enumeration, or the
position to increment, with the digits of `k + 1` as the result. -/
theorem scanBack_digits (n : Nat) (hn : 0 < n) :
    ∀ (l k : Nat) (suf : List Nat), k < n ^ l →
      match scanBack n (digits n l k ++ suf) l with
      | none => k + 1 = n ^ l
      | some i => i < l ∧ k + 1 < n ^ l ∧
          (digits n l k).take i ++ [(digits n l k).getD i 0 + 1] ++ List.replicate (l - i - 1) 0
            = digits n l (k + 1) := by
  intro l
  induction l with
  | zero =>
    intro k suf hk
    simp at hk
    subst hk
    simp [scanBack]
  | succ l ih =>
    intro k suf hk
    have hkdiv : k / n < n ^ l := by
      rw [Nat.div_lt_iff_lt_mul hn]
      simpa [pow_succ] using hk
    have hlen := digits_length n l (k / n)
    have hget : (digits n (l + 1) k ++ suf).getD l 0 = k % n := by
      have := getD_append_length_nat (digits n l (k / n)) suf (k % n) 0
      rw [hlen] at this
      simpa [digits] using this
    unfold scanBack
    rw [hget]
    by_cases hc : k % n + 1 = n
    · rw [if_pos hc]
      obtain ⟨hdiv, hmod⟩ := succ_div_mod_carry n k hc
      have hk' := Nat.div_add_mod k n
      have hstep := ih (k / n) ([k % n] ++ suf) hkdiv
      have happ : digits n (l + 1) k ++ suf = digits n l (k / n) ++ ([k % n] ++ suf) := by
        simp [digits]
      rw [happ]
      cases hsc : scanBack n (digits n l (k / n) ++ ([k % n] ++ suf)) l with
      | none =>
        rw [hsc] at hstep
        simp only at hstep ⊢
        rw [pow_succ, ← hstep, Nat.add_mul, Nat.mul_comm]
        generalize n * (k / n) = q at hk'
        omega
      | some i =>
        rw [hsc] at hstep
        simp only at hstep ⊢
        obtain ⟨hi, hlt, hid⟩ := hstep
        refine ⟨by omega, ?_, ?_⟩
        · have h1 : n * (k / n + 1 + 1) ≤ n * n ^ l := Nat.mul_le_mul_left n (by omega)
          rw [Nat.mul_succ, Nat.mul_succ] at h1
          rw [pow_succ, Nat.mul_comm (n ^ l) n]
          generalize n * (k / n) = q at hk' h1
          generalize n * n ^ l = p at h1
          omega
        · have htake : (digits n (l + 1) k).take i = (digits n l (k / n)).take i := by
            simp [digits, List.take_append_of_le_length, hlen, hi.le]
          have hgeti : (digits n (l + 1) k).getD i 0 = (digits n l (k / n)).getD i 0 :=
            getD_append_left_nat _ _ i 0 (by omega)
          have hrep : List.replicate (l + 1 - i - 1) 0
              = List.replicate (l - i - 1) 0 ++ [0] := by
            have : l + 1 - i - 1 = (l - i - 1) + 1 := by omega
            rw [this, List.replicate_succ']
          rw [htake, hgeti, hrep, ← List.append_assoc, hid]
          simp [digits, hdiv, hmod]
    · rw [if_neg hc]
      obtain ⟨hdiv, hmod⟩ := succ_div_mod_nocarry n k hn hc
      simp only
      refine ⟨by omega, ?_, ?_⟩
      · have hne : k + 1 ≠ n ^ (l + 1) := by
          intro h
          have : (k + 1) % n = 0 := by
            rw [h, pow_succ]; exact Nat.mul_mod_left _ _
          omega
        omega
      · have htake : (digits n (l + 1) k).take l = digits n l (k / n) := by
          simp [digits, List.take_append_of_le_length, hlen, List.take_of_length_le]
        have hgetl : (digits n (l + 1) k).getD l 0 = k % n := by
          have := getD_append_length_nat (digits n l (k / n)) [] (k % n) 0
          rw [hlen] at this
          simpa [digits] using this
        rw [htake, hgetl]
        simp [digits, hdiv, hmod]

theorem advance_digits (n : Nat) (hn : 0 < n) (l k : Nat) (hk : k < n ^ l) :
    advance n l (digits n l k)
      = if k + 1 = n ^ l then none else some (digits n l (k + 1)) := by
  have h := scanBack_digits n hn l k [] hk
  rw [List.append_nil] at h
  cases hs : scanBack n (digits n l k) l with
  | none =>
    rw [hs] at h
    simp only at h
    rw [if_pos h]
    simp [advance, hs]
  | some i =>
    rw [hs] at h
    obtain ⟨hi, hlt, hid⟩ := h
    rw [if_neg (by omega), advance_some n l _ i (digits_length n l k) hi hs, hid]

theorem buildPermutation_eq (charset : List GoString) :
    ∀ (indices : List Nat) (permutation : GoString),
      (∀ d ∈ indices, d < charset.length) →
      buildPermutation charset indices permutation
        = some (permutation ++ (indices.map (fun d => charset.getD d [])).flatten) := by
  intro indices
  induction indices with
  | nil => intro p _; simp [buildPermutation]
  | cons i indices ih =>
    intro p h
    have hi : i < charset.length := h i (by simp)
    unfold buildPermutation
    rw [dif_pos hi, ih _ (fun d hd => h d (by simp [hd]))]
    simp [List.getD_eq_getElem?_getD, List.getElem?_eq_getElem hi]

theorem buildPermutation_digits (charset : List GoString) (hn : 0 < charset.length)
    (l k : Nat) :
    buildPermutation charset (digits charset.length l k) [] = some (candidate charset l k) := by
  rw [buildPermutation_eq charset _ [] (digits_lt _ hn l k)]
  rfl

/-- One length of the iteration, from the `k`-th candidate on. -/
theorem lengthLoop_from (charset : List GoString) (hn : 0 < charset.length) (l : Nat) :
    ∀ (fuel k : Nat), k < charset.length ^ l → charset.length ^ l - k ≤ fuel →
      lengthLoop charset l fuel (digits charset.length l k)
        = .ok ((List.range' k (charset.length ^ l - k)).map (candidate charset l)) := by
  intro fuel
  induction fuel with
  | zero => intro k hk hf; omega
  | succ fuel ih =>
    intro k hk hf
    unfold lengthLoop
    rw [buildPermutation_digits charset hn, advance_digits _ hn l k hk]
    by_cases hend : k + 1 = charset.length ^ l
    · have : charset.length ^ l - k = 1 := by omega
      simp [hend, this]
    · have hlt : k + 1 < charset.length ^ l := by omega
      have hsplit : charset.length ^ l - k = (charset.length ^ l - (k + 1)) + 1 := by omega
      simp only [hend, if_false]
      rw [ih (k + 1) hlt (by omega), hsplit, List.range'_succ]
      simp

/-- One length of the iteration: all `|C|^l` candidates in order. -/
theorem lengthLoop_all (charset : List GoString) (hn : 0 < charset.length) (l fuel : Nat)
    (hf : charset.length ^ l ≤ fuel) :
    lengthLoop charset l fuel (List.replicate l 0)
      = .ok ((List.range (charset.length ^ l)).map (candidate charset l)) := by
  have hpos : 0 < charset.length ^ l := Nat.pow_pos hn
  rw [← digits_zero charset.length l, lengthLoop_from charset hn l fuel 0 hpos (by omega)]
  simp [List.range_eq_range']

theorem lengthsLoop_all (charset : List GoString) (hn : 0 < charset.length) (fuel : Nat) :
    ∀ (lens : List Nat), (∀ l ∈ lens, charset.length ^ l ≤ fuel) →
      lengthsLoop charset fuel lens
        = .ok (lens.flatMap
            (fun l => (List.range (charset.length ^ l)).map (candidate charset l))) := by
  intro lens
  induction lens with
  | nil => intro _; rfl
  | cons l lens ih =>
    intro h
    unfold lengthsLoop
    rw [lengthLoop_all charset hn l fuel (h l (by simp)), ih (fun l' hl' => h l' (by simp [hl']))]
    simp


/-! ## The order of Go strings -/

theorem strLess_irrefl : ∀ a : GoString, strLess a a = false := by
  intro a
  induction a with
  | nil => rfl
  | cons x a ih => simp [strLess, ih]

theorem strLess_trans : ∀ a b c : GoString,
    strLess a b = true → strLess b c = true → strLess a c = true := by
  intro a
  induction a with
  | nil =>
    intro b c hab hbc
    cases b with
    | nil => simp [strLess] at hab
    | cons y b =>
      cases c with
      | nil => simp [strLess] at hbc
      | cons z c => simp [strLess]
  | cons x a ih =>
    intro b c hab hbc
    cases b with
    | nil => simp [strLess] at hab
    | cons y b =>
      cases c with
      | nil => simp [strLess] at hbc
      | cons z c =>
        simp only [strLess] at hab hbc ⊢
        by_cases hxy : x < y
        · by_cases hyz : y < z
          · simp [lt_trans hxy hyz]
          · by_cases hyz' : y = z
            · subst hyz'; simp [hxy]
            · simp [hyz, hyz'] at hbc
        · by_cases hxy' : x = y
          · subst hxy'
            simp only [hxy, if_false, if_true] at hab
            by_cases hyz : x < z
            · simp [hyz]
            · by_cases hyz' : x = z
              · subst hyz'
                simp only [hyz, if_false, if_true] at hbc ⊢
                exact ih b c hab hbc
              · simp [hyz, hyz'] at hbc
          · simp [hxy, hxy'] at hab

theorem strLess_total : ∀ a b : GoString,
    strLess a b = true ∨ a = b ∨ strLess b a = true := by
  intro a
  induction a with
  | nil =>
    intro b
    cases b with
    | nil => simp
    | cons y b => simp [strLess]
  | cons x a ih =>
    intro b
    cases b with
    | nil => simp [strLess]
    | cons y b =>
      simp only [strLess]
      rcases lt_trichotomy x y with h | h | h
      · simp [h]
      · subst h
        rcases ih b with h' | h' | h'
        · simp [h']
        · simp [h']
        · simp [h']
      · have : ¬ x < y := not_lt.mpr h.le
        simp [h, this]

theorem strLess_asymm (a b : GoString) (h : strLess a b = true) : strLess b a = false := by
  cases hba : strLess b a with
  | false => rfl
  | true =>
    have := strLess_trans a b a h hba
    rw [strLess_irrefl] at this
    exact absurd this (by simp)

/-- From `x < y` and `y <= z` follows `x < z`. -/
theorem strLess_of_lt_of_le (x y z : GoString) (hxy : strLess x y = true)
    (hyz : strLess z y = false) : strLess x z = true := by
  rcases strLess_total x z with h | h | h
  · exact h
  · subst h; rw [hxy] at hyz; exact absurd hyz (by simp)
  · have := strLess_trans z x y h hxy
    rw [this] at hyz; exact absurd hyz (by simp)

/-- From `x <= y` and `y <= z` follows `x <= z`. -/
theorem strLe_trans (x y z : GoString) (hxy : strLess y x = false)
    (hyz : strLess z y = false) : strLess z x = false := by
  cases hzx : strLess z x with
  | false => rfl
  | true =>
    rcases strLess_total x y with h | h | h
    · have := strLess_trans z x y hzx h
      rw [this] at hyz; exact absurd hyz (by simp)
    · subst h; rw [hzx] at hyz; exact absurd hyz (by simp)
    · rw [h] at hxy; exact absurd hxy (by simp)

/-! ## Sorting and compacting -/

theorem mem_insertString (x z : GoString) :
    ∀ ys : List GoString, z ∈ insertString x ys ↔ z = x ∨ z ∈ ys := by
  intro ys
  induction ys with
  | nil => simp [insertString]
  | cons y ys ih =>
    unfold insertString
    split
    · simp
    · simp [ih]; tauto

theorem mem_sortStrings (z : GoString) :
    ∀ l : List GoString, z ∈ sortStrings l ↔ z ∈ l := by
  intro l
  induction l with
  | nil => simp [sortStrings]
  | cons x l ih => simp [sortStrings, mem_insertString, ih]

theorem insertString_sorted (x : GoString) :
    ∀ ys : List GoString, ys.Pairwise (fun a b => strLess b a = false) →
      (insertString x ys).Pairwise (fun a b => strLess b a = false) := by
  intro ys
  induction ys with
  | nil => intro _; simp [insertString]
  | cons y ys ih =>
    intro h
    rw [List.pairwise_cons] at h
    unfold insertString
    split
    · next hxy =>
      rw [List.pairwise_cons]
      refine ⟨?_, List.pairwise_cons.mpr h⟩
      intro z hz
      rcases List.mem_cons.mp hz with hz | hz
      · subst hz; exact strLess_asymm _ _ hxy
      · exact strLe_trans x y z (strLess_asymm _ _ hxy) (h.1 z hz)
    · next hxy =>
      rw [List.pairwise_cons]
      refine ⟨?_, ih h.2⟩
      intro z hz
      rcases (mem_insertString x z ys).mp hz with hz | hz
      · subst hz
        rcases strLess_total z y with h' | h' | h'
        · exact absurd h' hxy
        · subst h'; exact strLess_irrefl _
        · exact strLess_asymm _ _ h'
      · exact h.1 z hz

theorem sortStrings_sorted :
    ∀ l : List GoString, (sortStrings l).Pairwise (fun a b => strLess b a = false) := by
  intro l
  induction l with
  | nil => simp [sortStrings]
  | cons x l ih => exact insertString_sorted x _ ih

theorem mem_Compact (z : GoString) : ∀ l : List GoString, z ∈ Compact l ↔ z ∈ l := by
  intro l
  induction l with
  | nil => simp [Compact]
  | cons x l ih =>
    cases l with
    | nil => simp [Compact]
    | cons y rest =>
      unfold Compact
      split
      · next hxy => subst hxy; rw [ih]; simp
      · rw [List.mem_cons, ih]; simp

/-- Compacting an ascending list leaves a strictly ascending one. -/
theorem Compact_strict :
    ∀ l : List GoString, l.Pairwise (fun a b => strLess b a = false) →
      (Compact l).Pairwise (fun a b => strLess a b = true) := by
  intro l
  induction l with
  | nil => intro _; simp [Compact]
  | cons x l ih =>
    intro h
    rw [List.pairwise_cons] at h
    cases l with
    | nil => simp [Compact]
    | cons y rest =>
      unfold Compact
      split
      · exact ih h.2
      · next hxy =>
        rw [List.pairwise_cons]
        refine ⟨?_, ih h.2⟩
        intro z hz
        have hz' : z ∈ y :: rest := (mem_Compact z _).mp hz
        rcases strLess_total x z with h' | h' | h'
        · exact h'
        · subst h'
          -- z = x lies in the tail: then y <= x and x <= y, so x = y
          have hxy' := h.1 y (by simp)
          rcases List.mem_cons.mp hz' with e | e
          · exact absurd e hxy
          · have hyx := (List.pairwise_cons.mp h.2).1 x e
            rcases strLess_total x y with t | t | t
            · rw [t] at hyx; exact absurd hyx (by simp)
            · exact absurd t hxy
            · rw [t] at hxy'; exact absurd hxy' (by simp)
        · have := h.1 z hz'
          rw [h'] at this; exact absurd this (by simp)

theorem insertString_length (x : GoString) :
    ∀ ys : List GoString, (insertString x ys).length = ys.length + 1 := by
  intro ys
  induction ys with
  | nil => rfl
  | cons y ys ih =>
    unfold insertString
    split <;> simp [ih]

theorem rawCharset_strict (s : GoString) :
    (rawCharset s).Pairwise (fun a b => strLess a b = true) :=
  Compact_strict _ (sortStrings_sorted _)

theorem rawCharset_mem (s : GoString) (c : GoString) :
    c ∈ rawCharset s ↔ c ∈ explode s := by
  unfold rawCharset
  rw [mem_Compact, mem_sortStrings]

theorem firstSize_cases (b : Byte) :
    firstSize b = 1 ∨ (2 ≤ firstSize b ∧ firstSize b ≤ 4 ∧ firstSize b = leadLen b.val) := by
  unfold firstSize leadLen
  have hb := b.isLt
  split_ifs <;> omega

theorem decodeRuneSize_cases (b : Byte) (t : List Byte) :
    1 ≤ decodeRuneSize (b :: t) ∧ decodeRuneSize (b :: t) ≤ (b :: t).length ∧
    (decodeRuneSize (b :: t) = 1 ∨ decodeRuneSize (b :: t) = leadLen b.val) := by
  unfold decodeRuneSize
  simp only [List.length_cons]
  have h := firstSize_cases b
  generalize firstSize b = sz at h ⊢
  generalize leadLen b.val = ll at h ⊢
  generalize acceptRange b = acc
  generalize ((b :: t).getD 1 0).val = s1
  generalize ((b :: t).getD 2 0).val = s2
  generalize ((b :: t).getD 3 0).val = s3
  split_ifs <;> omega

/-- What the split yields: pieces cut off by the decoder. -/
theorem explodeLoop_mem (c : GoString) : ∀ (fuel : Nat) (s : GoString),
    c ∈ explodeLoop fuel s →
      ∃ b t, c = (b :: t).take (decodeRuneSize (b :: t)) := by
  intro fuel
  induction fuel with
  | zero => intro s h; simp [explodeLoop] at h
  | succ fuel ih =>
    intro s h
    unfold explodeLoop at h
    split at h
    · simp at h
    · rcases List.mem_cons.mp h with h | h
      · cases s with
        | nil => contradiction
        | cons b t => exact ⟨b, t, h⟩
      · exact ih _ h

/-- The first byte of a piece of the split tells its length, unless the piece is a
single byte. -/
theorem explode_lead (s : GoString) (a : GoString) (ha : a ∈ explode s) :
    ∃ b rest, a = b :: rest ∧ (a.length = 1 ∨ a.length = leadLen b.val) := by
  obtain ⟨b, t, rfl⟩ := explodeLoop_mem a _ _ ha
  obtain ⟨h1, h2, h3⟩ := decodeRuneSize_cases b t
  obtain ⟨n, hn⟩ : ∃ n, decodeRuneSize (b :: t) = n + 1 := ⟨_, (Nat.succ_pred_eq_of_pos h1).symm⟩
  refine ⟨b, t.take n, by rw [hn, List.take_succ_cons], ?_⟩
  rw [List.length_take, Nat.min_eq_left h2]
  exact h3

theorem explodeLoop_flatten : ∀ (fuel : Nat) (s : GoString), s.length ≤ fuel →
    (explodeLoop fuel s).flatten = s := by
  intro fuel
  induction fuel with
  | zero =>
    intro s h
    have : s = [] := List.length_eq_zero.mp (by omega)
    simp [explodeLoop, this]
  | succ fuel ih =>
    intro s h
    unfold explodeLoop
    split
    · next hs => simp [hs]
    · next hs =>
      cases s with
      | nil => contradiction
      | cons b t =>
        obtain ⟨h1, h2, -⟩ := decodeRuneSize_cases b t
        rw [List.flatten_cons, ih _ (by rw [List.length_drop]; omega), List.take_append_drop]

/-- The split loses nothing: the pieces put together are the string. -/
theorem explode_flatten (s : GoString) : (explode s).flatten = s :=
  explodeLoop_flatten _ _ (le_refl _)

theorem explode_ne_nil (s : GoString) (hs : s ≠ []) : explode s ≠ [] := by
  intro h
  have := explode_flatten s
  rw [h] at this
  exact hs this.symm

/-- In a charset that is valid UTF-8 no character is a proper prefix of another one. -/
theorem explode_prefix_free (s : GoString) (hv : validUTF8 s = true) (a b : GoString)
    (ha : a ∈ explode s) (hb : b ∈ explode s) (hp : a <+: b) : a = b := by
  have hall := List.all_eq_true.mp hv
  have hla := of_decide_eq_true (hall a ha)
  have hlb := of_decide_eq_true (hall b hb)
  obtain ⟨a0, ar, rfl, -⟩ := explode_lead s a ha
  obtain ⟨b0, br, rfl, -⟩ := explode_lead s b hb
  obtain ⟨t, ht⟩ := hp
  have h0 : a0 = b0 := by
    simp only [List.cons_append, List.cons.injEq] at ht
    exact ht.1
  subst h0
  simp only [List.headD_cons] at hla hlb
  have hlen : (a0 :: ar).length = (a0 :: br).length := by rw [hla, hlb]
  have : t = [] := by
    have := congrArg List.length ht
    rw [List.length_append, hlen] at this
    exact List.length_eq_zero.mp (by omega)
  rw [this, List.append_nil] at ht
  exact ht

theorem rawCharset_pos (s : GoString) (hs : s ≠ []) : 0 < (rawCharset s).length := by
  obtain ⟨c, hc⟩ := List.exists_mem_of_ne_nil _ (explode_ne_nil s hs)
  exact List.length_pos_of_mem ((rawCharset_mem s c).mpr hc)

theorem strictBefore_append : ∀ (u v : GoString), StrictBefore u v →
    ∀ x y : GoString, StrictBefore (u ++ x) (v ++ y) := by
  intro u
  induction u with
  | nil => intro v h; exact absurd List.nil_prefix h.2
  | cons a u ih =>
    intro v h x y
    cases v with
    | nil => simp [StrictBefore, strLess] at h
    | cons b v =>
      obtain ⟨hlt, hnp⟩ := h
      simp only [strLess] at hlt
      by_cases hab : a < b
      · refine ⟨by simp [strLess, hab], ?_⟩
        intro hp
        have := List.cons_prefix_cons.mp hp
        exact absurd this.1 (ne_of_lt hab)
      · by_cases hab' : a = b
        · subst hab'
          simp only [hab, if_false, if_true] at hlt
          have hnp' : ¬ u <+: v := fun hp => hnp (List.cons_prefix_cons.mpr ⟨rfl, hp⟩)
          obtain ⟨h1, h2⟩ := ih v ⟨hlt, hnp'⟩ x y
          refine ⟨by simpa [strLess, hab] using h1, ?_⟩
          intro hp
          exact h2 (List.cons_prefix_cons.mp hp).2
        · simp [hab, hab'] at hlt

theorem strictBefore_prefix (p : GoString) : ∀ (a b : GoString), StrictBefore a b →
    StrictBefore (p ++ a) (p ++ b) := by
  induction p with
  | nil => intro a b h; simpa using h
  | cons x p ih =>
    intro a b h
    obtain ⟨h1, h2⟩ := ih a b h
    refine ⟨by simpa [strLess] using h1, ?_⟩
    intro hp
    exact h2 (List.cons_prefix_cons.mp hp).2

/-- Two characters of a strictly ascending, prefix-free charset, by their indices. -/
theorem strictBefore_getD (C : List GoString)
    (hs : C.Pairwise (fun a b => strLess a b = true))
    (hpf : ∀ a ∈ C, ∀ b ∈ C, a <+: b → a = b)
    (i j : Nat) (hij : i < j) (hj : j < C.length) :
    StrictBefore (C.getD i []) (C.getD j []) := by
  have hi : i < C.length := by omega
  rw [List.getD_eq_getElem _ _ hi, List.getD_eq_getElem _ _ hj]
  have hlt : strLess C[i] C[j] = true := List.pairwise_iff_getElem.mp hs i j hi hj hij
  refine ⟨hlt, ?_⟩
  intro hp
  have := hpf _ (List.getElem_mem hi) _ (List.getElem_mem hj) hp
  rw [this, strLess_irrefl] at hlt
  exact absurd hlt (by simp)

theorem candidate_succ (C : List GoString) (l k : Nat) :
    candidate C (l + 1) k = candidate C l (k / C.length) ++ C.getD (k % C.length) [] := by
  simp [candidate, digits]

/-- Within one length the candidates come in strictly ascending order of Go strings. -/
theorem candidate_strictBefore (C : List GoString)
    (hs : C.Pairwise (fun a b => strLess a b = true))
    (hpf : ∀ a ∈ C, ∀ b ∈ C, a <+: b → a = b) :
    ∀ (l k k' : Nat), k < k' → k' < C.length ^ l →
      StrictBefore (candidate C l k) (candidate C l k') := by
  intro l
  induction l with
  | zero => intro k k' h1 h2; simp at h2; omega
  | succ l ih =>
    intro k k' hlt hk'
    have hn : 0 < C.length := by
      rcases Nat.eq_zero_or_pos C.length with h | h
      · rw [h] at hk'; simp at hk'
      · exact h
    rw [candidate_succ, candidate_succ]
    have hdiv : k / C.length ≤ k' / C.length := Nat.div_le_div_right hlt.le
    have hk'div : k' / C.length < C.length ^ l := by
      rw [Nat.div_lt_iff_lt_mul hn]
      simpa [pow_succ] using hk'
    rcases Nat.lt_or_eq_of_le hdiv with hd | hd
    · exact strictBefore_append _ _ (ih _ _ hd hk'div) _ _
    · rw [hd]
      apply strictBefore_prefix
      have e1 := Nat.div_add_mod k C.length
      have e2 := Nat.div_add_mod k' C.length
      rw [hd] at e1
      have hmod : k % C.length < k' % C.length := by
        generalize C.length * (k' / C.length) = q at e1 e2
        omega
      exact strictBefore_getD C hs hpf _ _ hmod (Nat.mod_lt _ hn)


/-! ## Charsets that are not prefix-free -/

theorem firstSize_lead (b : Byte) (h : firstSize b ≠ 1) : 0xC2 ≤ b.val := by
  unfold firstSize at h
  split_ifs at h <;> omega

theorem acceptRange_hi (b : Byte) : (acceptRange b).2 ≤ 0xBF := by
  unfold acceptRange
  split_ifs <;> simp

/-- A sequence of two bytes or more starts with a byte of 0xC2 or more and goes on with
a byte of 0xBF or less. -/
theorem decodeRuneSize_second (b : Byte) (t : List Byte) (h : 2 ≤ decodeRuneSize (b :: t)) :
    0xC2 ≤ b.val ∧ ((b :: t).getD 1 0).val ≤ 0xBF := by
  unfold decodeRuneSize at h
  simp only [List.length_cons] at h
  have h1 := firstSize_lead b
  have h2 := acceptRange_hi b
  generalize firstSize b = sz at h h1
  generalize acceptRange b = acc at h h2
  generalize ((b :: t).getD 1 0).val = s1 at h ⊢
  generalize ((b :: t).getD 2 0).val = s2 at h
  generalize ((b :: t).getD 3 0).val = s3 at h
  split_ifs at h <;> omega

/-- A piece of the split of two bytes or more: its second byte is below its first. -/
theorem explode_second (s : GoString) (c : GoString) (hc : c ∈ explode s)
    (hlen : 2 ≤ c.length) : ∃ b y rest, c = b :: y :: rest ∧ y.val < b.val := by
  obtain ⟨b, t, rfl⟩ := explodeLoop_mem c _ _ hc
  obtain ⟨h1, h2, -⟩ := decodeRuneSize_cases b t
  rw [List.length_take, Nat.min_eq_left h2] at hlen
  obtain ⟨hb, hy⟩ := decodeRuneSize_second b t hlen
  obtain ⟨n, hn⟩ : ∃ n, decodeRuneSize (b :: t) = n + 2 := ⟨_, (Nat.sub_add_cancel hlen).symm⟩
  cases t with
  | nil => simp only [List.length_cons, List.length_nil] at h2; omega
  | cons y t' =>
    refine ⟨b, y, t'.take n, by rw [hn, List.take_succ_cons, List.take_succ_cons], ?_⟩
    simp only [List.getD_cons_succ, List.getD_cons_zero] at hy
    omega

theorem strLess_append_left (p : GoString) (u v : GoString) :
    strLess (p ++ u) (p ++ v) = strLess u v := by
  induction p with
  | nil => rfl
  | cons x p ih => simp [strLess, ih]

theorem strLess_extend (a : GoString) (y : Byte) (rest : GoString) :
    strLess a (a ++ y :: rest) = true := by
  have := strLess_append_left a [] (y :: rest)
  simpa [strLess] using this

theorem strLess_head (b0 : Byte) (br c : GoString) (h : strLess (b0 :: br) c = true) :
    ∃ c0 cr, c = c0 :: cr ∧ b0.val ≤ c0.val := by
  cases c with
  | nil => simp [strLess] at h
  | cons c0 cr =>
    refine ⟨c0, cr, rfl, ?_⟩
    unfold strLess at h
    split_ifs at h with h1 h2
    · exact Nat.le_of_lt h1
    · rw [h2]

theorem candidate_two (C : List GoString) (i r : Nat) (hi : i < C.length)
    (hr : r < C.length) :
    candidate C 2 (C.length * i + r) = C.getD i [] ++ C.getD r [] := by
  have hn : 0 < C.length := by omega
  have h1 : (C.length * i + r) / C.length = i := by
    rw [Nat.mul_add_div hn, Nat.div_eq_of_lt hr, Nat.add_zero]
  have h2 : (C.length * i + r) % C.length = r := by
    rw [Nat.mul_add_mod, Nat.mod_eq_of_lt hr]
  have h3 : i % C.length = i := Nat.mod_eq_of_lt hi
  simp [candidate, digits, h1, h2, h3]

/-- In a strictly ascending charset with a character `a` that is a proper prefix of a
character `b`, whose next byte is below the first byte of `b`, the candidates of length 2
are out of order: `a` with the last character comes before `b` with the first one. -/
theorem candidate_out_of_order (C : List GoString)
    (hs : C.Pairwise (fun a b => strLess a b = true))
    (a : GoString) (ha : a ∈ C) (b0 y : Byte) (br rest : GoString)
    (hb : a ++ y :: rest ∈ C) (hb0 : a ++ y :: rest = b0 :: br) (hy : y.val < b0.val) :
    ∃ k k', k < k' ∧ k' < C.length ^ 2 ∧
      strLess (candidate C 2 k) (candidate C 2 k') = false := by
  obtain ⟨i, hi, hia⟩ := List.mem_iff_getElem.mp ha
  obtain ⟨j, hj, hjb⟩ := List.mem_iff_getElem.mp hb
  have hpw := List.pairwise_iff_getElem.mp hs
  have hij : i < j := by
    rcases Nat.lt_trichotomy i j with h | h | h
    · exact h
    · subst h
      rw [hia] at hjb
      have := congrArg List.length hjb
      simp at this
    · have h1 := hpw j i hj hi h
      rw [hia, hjb, strLess_asymm _ _ (strLess_extend a y rest)] at h1
      exact absurd h1 (by simp)
  have hn : 0 < C.length := by omega
  have hlast : C.length - 1 < C.length := by omega
  -- the last character starts with a byte that is not below `b0`
  obtain ⟨c0, cr, hc, hc0⟩ : ∃ c0 cr, C.getD (C.length - 1) [] = c0 :: cr ∧ b0.val ≤ c0.val := by
    rw [List.getD_eq_getElem _ _ hlast]
    rcases Nat.lt_or_ge j (C.length - 1) with h | h
    · have h1 := hpw j (C.length - 1) hj hlast h
      rw [hjb, hb0] at h1
      exact strLess_head b0 br _ h1
    · have hj' : j = C.length - 1 := by omega
      subst hj'
      rw [hjb, hb0]
      exact ⟨b0, br, rfl, le_refl _⟩
  refine ⟨C.length * i + (C.length - 1), C.length * j + 0, ?_, ?_, ?_⟩
  · have : C.length * (i + 1) ≤ C.length * j := Nat.mul_le_mul_left _ hij
    rw [Nat.mul_add, Nat.mul_one] at this
    omega
  · have : C.length * (j + 1) ≤ C.length * C.length := Nat.mul_le_mul_left _ hj
    rw [Nat.mul_add, Nat.mul_one] at this
    rw [pow_two]
    omega
  · rw [candidate_two C i _ hi hlast, candidate_two C j 0 hj hn,
      List.getD_eq_getElem _ _ hi, List.getD_eq_getElem _ _ hj, hia, hjb, hc,
      List.append_assoc, strLess_append_left]
    simp only [List.cons_append, strLess]
    have h1 : ¬ c0 < y := by
      intro h
      have : c0.val < y.val := h
      omega
    have h2 : ¬ c0 = y := by
      intro h
      rw [h] at hc0
      omega
    simp [h1, h2]

/-- A charset in which a character is a proper prefix of another one: its candidates of
length 2 are out of order. -/
theorem rawCharset_out_of_order (s : GoString) (a b : GoString) (ha : a ∈ rawCharset s)
    (hb : b ∈ rawCharset s) (hp : a <+: b) (hab : a ≠ b) :
    ∃ k k', k < k' ∧ k' < (rawCharset s).length ^ 2 ∧
      strLess (candidate (rawCharset s) 2 k) (candidate (rawCharset s) 2 k') = false := by
  obtain ⟨a0, ar, rfl, hla⟩ := explode_lead s a ((rawCharset_mem _ _).mp ha)
  obtain ⟨b0, br, rfl, hlb⟩ := explode_lead s b ((rawCharset_mem _ _).mp hb)
  obtain ⟨t, ht⟩ := hp
  have h0 : a0 = b0 := by
    simp only [List.cons_append, List.cons.injEq] at ht
    exact ht.1
  subst h0
  have hlen := congrArg List.length ht
  rw [List.length_append] at hlen
  cases t with
  | nil => rw [List.append_nil] at ht; exact absurd ht hab
  | cons y rest =>
    have hb2 : 2 ≤ (a0 :: br).length := by
      simp only [List.length_cons] at hlen ⊢
      omega
    obtain ⟨b0', y', rest', hbe, hy'⟩ :=
      explode_second s _ ((rawCharset_mem _ _).mp hb) hb2
    -- the shorter one is the single first byte
    have hal : (a0 :: ar).length = 1 := by
      rcases hla with h | h
      · exact h
      · rcases hlb with h' | h'
        · omega
        · simp only [List.length_cons] at hlen h h'
          omega
    have har : ar = [] := by
      simp only [List.length_cons] at hal
      exact List.length_eq_zero.mp (by omega)
    subst har
    rw [← ht] at hbe
    simp only [List.cons_append, List.nil_append, List.cons.injEq] at hbe
    obtain ⟨rfl, rfl, -⟩ := hbe
    rw [← ht] at hb
    exact candidate_out_of_order _ (rawCharset_strict s) [a0] ha a0 y (y :: rest) rest hb rfl
      hy'

/-! ## The raw iterator: the claims -/

/-- C12, amended: for a non-empty charset, with C the split, sorted and compacted
charset, the run of IterPasswords (each inner loop given at least |C|^hi iterations)
yields, for each length l from lo to hi in ascending order, the |C|^l candidates of that
length, the k-th being the base-|C| digits of k, padded on the left to l digits, each
digit d replaced by the d-th character of C. C is strictly ascending and has the pieces
of the split of the charset. When no character of C is a proper prefix of another one,
the candidates of one length are strictly ascending as Go strings; this is so for every
charset that is valid UTF-8. When a character of C is a proper prefix of another one,
the candidates of length 2 are not in ascending order. Charset "a" with range 1-1 yields
exactly "a". -/
theorem IterPasswords_order (RawCharset : GoString) (lo hi fuel : Nat)
    (hne : RawCharset ≠ []) (hfuel : (rawCharset RawCharset).length ^ hi ≤ fuel) :
    RawIter.IterPasswords RawCharset lo hi fuel
      = .ok ((List.range' lo (hi + 1 - lo)).flatMap (fun l =>
          (List.range ((rawCharset RawCharset).length ^ l)).map
            (candidate (rawCharset RawCharset) l))) ∧
    (∀ l k, (digits (rawCharset RawCharset).length l k).length = l ∧
      ∀ d ∈ digits (rawCharset RawCharset).length l k, d < (rawCharset RawCharset).length) ∧
    (rawCharset RawCharset).Pairwise (fun a b => strLess a b = true) ∧
    (∀ c, c ∈ rawCharset RawCharset ↔ c ∈ explode RawCharset) ∧
    ((∀ a ∈ rawCharset RawCharset, ∀ b ∈ rawCharset RawCharset, a <+: b → a = b) →
      ∀ l k k', k < k' → k' < (rawCharset RawCharset).length ^ l →
        strLess (candidate (rawCharset RawCharset) l k)
          (candidate (rawCharset RawCharset) l k') = true) ∧
    (validUTF8 RawCharset = true →
      ∀ a ∈ rawCharset RawCharset, ∀ b ∈ rawCharset RawCharset, a <+: b → a = b) ∧
    ((∃ a ∈ rawCharset RawCharset, ∃ b ∈ rawCharset RawCharset, a <+: b ∧ a ≠ b) →
      ∃ k k', k < k' ∧ k' < (rawCharset RawCharset).length ^ 2 ∧
        strLess (candidate (rawCharset RawCharset) 2 k)
          (candidate (rawCharset RawCharset) 2 k') = false) ∧
    RawIter.IterPasswords (str "a") 1 1 1 = .ok [str "a"] := by
  have hn := rawCharset_pos RawCharset hne
  refine ⟨?_, ?_, rawCharset_strict _, rawCharset_mem _, ?_, ?_, ?_, by rfl⟩
  · unfold RawIter.IterPasswords
    apply lengthsLoop_all _ hn
    intro l hl
    have hle : l ≤ hi := by
      have := List.mem_range'_1.mp hl
      omega
    exact le_trans (Nat.pow_le_pow_right hn hle) hfuel
  · intro l k
    exact ⟨digits_length _ l k, digits_lt _ hn l k⟩
  · intro hpf l k k' hk hk'
    exact (candidate_strictBefore _ (rawCharset_strict _) hpf l k k' hk hk').1
  · intro hv a ha b hb hp
    exact explode_prefix_free RawCharset hv a b ((rawCharset_mem _ _).mp ha)
      ((rawCharset_mem _ _).mp hb) hp
  · rintro ⟨a, ha, b, hb, hp, hab⟩
    exact rawCharset_out_of_order RawCharset a b ha hb hp hab

/-- The charset "éa" (valid UTF-8, three bytes) with range 1-2: the six candidates in
order, and the order of two neighbours of length 2. The charset e2 e2 82 ac (a lone byte
e2, then the three bytes of the euro sign): two candidates of length 2 out of order. -/
theorem IterPasswords_order_witness :
    RawIter.IterPasswords (str "éa") 1 2 4
      = .ok [str "a", str "é", str "aa", str "aé", str "éa", str "éé"] ∧
    strLess (candidate (rawCharset (str "éa")) 2 1) (candidate (rawCharset (str "éa")) 2 2)
      = true ∧
    ∃ k k', k < k' ∧ k' < (rawCharset [0xe2, 0xe2, 0x82, 0xac]).length ^ 2 ∧
      strLess (candidate (rawCharset [0xe2, 0xe2, 0x82, 0xac]) 2 k)
        (candidate (rawCharset [0xe2, 0xe2, 0x82, 0xac]) 2 k') = false := by
  obtain ⟨hrun, -, -, -, horder, hvalid, -, -⟩ :=
    IterPasswords_order (str "éa") 1 2 4 (by decide) (by decide)
  obtain ⟨-, -, -, -, -, -, hbad, -⟩ :=
    IterPasswords_order [0xe2, 0xe2, 0x82, 0xac] 2 2 4 (by decide) (by decide)
  refine ⟨?_, horder (hvalid (by decide)) 2 1 2 (by decide) (by decide),
    hbad ⟨[0xe2], by decide, [0xe2, 0x82, 0xac], by decide, by decide, by decide⟩⟩
  rw [hrun]
  rfl

set_option maxRecDepth 100000 in
/-- C12 as stated fails: the charset given as the four bytes a9 c3 c3 a9 (not valid
UTF-8) is split into a9, c3 and c3a9, so the character c3 is a proper prefix of the
character c3a9. With range 2-2 the sixth candidate c3c3a9 is followed by c3a9a9, which
is the smaller string, and with length 3 the candidates 11 and 21 are the same string. -/
theorem IterPasswords_order_invalid_utf8 :
    rawCharset [0xa9, 0xc3, 0xc3, 0xa9] = [[0xa9], [0xc3], [0xc3, 0xa9]] ∧
    RawIter.IterPasswords [0xa9, 0xc3, 0xc3, 0xa9] 2 2 9
      = .ok [[0xa9, 0xa9], [0xa9, 0xc3], [0xa9, 0xc3, 0xa9], [0xc3, 0xa9], [0xc3, 0xc3],
          [0xc3, 0xc3, 0xa9], [0xc3, 0xa9, 0xa9], [0xc3, 0xa9, 0xc3],
          [0xc3, 0xa9, 0xc3, 0xa9]] ∧
    strLess [0xc3, 0xc3, 0xa9] [0xc3, 0xa9, 0xa9] = false ∧
    strLess [0xc3, 0xa9, 0xa9] [0xc3, 0xc3, 0xa9] = true ∧
    candidate (rawCharset [0xa9, 0xc3, 0xc3, 0xa9]) 3 11
      = candidate (rawCharset [0xa9, 0xc3, 0xc3, 0xa9]) 3 21 := by
  refine ⟨by decide, by rfl, by decide, by decide, by decide⟩

theorem powLoop_mod (numChars : Nat) : ∀ (i acc : Nat),
    powLoop numChars i acc % 2 ^ 64 = acc * numChars ^ i % 2 ^ 64 := by
  intro i
  induction i with
  | zero => intro acc; simp [powLoop]
  | succ i ih =>
    intro acc
    unfold powLoop
    rw [ih, Nat.mod_mul_mod, Nat.mul_assoc, ← pow_succ']

theorem countLoop_eq (B : Nat) : ∀ (lens : List Nat) (a : Nat),
    lens.foldl (fun totalPwCount len =>
        (totalPwCount + powLoop (B % 2 ^ 64) len 1) % 2 ^ 64) (a % 2 ^ 64)
      = (a + (lens.map (fun l => B ^ l)).sum) % 2 ^ 64 := by
  intro lens
  induction lens with
  | nil => intro a; simp
  | cons l lens ih =>
    intro a
    have hstep : (a % 2 ^ 64 + powLoop (B % 2 ^ 64) l 1) % 2 ^ 64 = (a + B ^ l) % 2 ^ 64 := by
      rw [Nat.add_mod, Nat.mod_mod, powLoop_mod, Nat.one_mul, ← Nat.pow_mod, ← Nat.add_mod]
    rw [List.foldl_cons, hstep, ih (a + B ^ l), List.map_cons, List.sum_cons, Nat.add_assoc]

/-- What the two methods compute: the iteration yields the sum over l of |C|^l
candidates, the count is the sum over l of B^l on uint64, with B the number of bytes of
the charset string as given. -/
theorem RawIter_counts (RawCharset : GoString) (lo hi fuel : Nat)
    (hne : RawCharset ≠ []) (hfuel : (rawCharset RawCharset).length ^ hi ≤ fuel) :
    (∃ out, RawIter.IterPasswords RawCharset lo hi fuel = .ok out ∧
      out.length = ((List.range' lo (hi + 1 - lo)).map
        (fun l => (rawCharset RawCharset).length ^ l)).sum) ∧
    RawIter.GetPasswordCount RawCharset lo hi
      = ((List.range' lo (hi + 1 - lo)).map
          (fun l => RawCharset.length ^ l)).sum % 2 ^ 64 := by
  have hn := rawCharset_pos RawCharset hne
  have hrun : RawIter.IterPasswords RawCharset lo hi fuel
      = .ok ((List.range' lo (hi + 1 - lo)).flatMap (fun l =>
          (List.range ((rawCharset RawCharset).length ^ l)).map
            (candidate (rawCharset RawCharset) l))) := by
    unfold RawIter.IterPasswords
    apply lengthsLoop_all _ hn
    intro l hl
    have hle : l ≤ hi := by
      have := List.mem_range'_1.mp hl
      omega
    exact le_trans (Nat.pow_le_pow_right hn hle) hfuel
  refine ⟨⟨_, hrun, ?_⟩, ?_⟩
  · simp [List.length_flatMap, Function.comp_def]
  · unfold RawIter.GetPasswordCount
    have := countLoop_eq RawCharset.length (List.range' lo (hi + 1 - lo)) 0
    simpa using this

/-- C11 fails on the code: GetPasswordCount takes the number of bytes of the charset as
given, IterPasswords works with the compacted list of characters. For charset "aa" and
range 1-1 the count is 2 and one candidate is yielded; for charset "é" (one character,
two bytes) the count is 2 and one candidate is yielded. -/
theorem GetPasswordCount_not_compacted :
    RawIter.GetPasswordCount (str "aa") 1 1 = 2 ∧
    RawIter.IterPasswords (str "aa") 1 1 1 = .ok [str "a"] ∧
    RawIter.GetPasswordCount (str "é") 1 1 = 2 ∧
    RawIter.IterPasswords (str "é") 1 1 1 = .ok [str "é"] := by
  refine ⟨by decide, by rfl, by decide, by rfl⟩

/-! ## The producer -/

theorem producerLoop_eq (StartIndex : Nat) : ∀ (pws : List GoString) (i : Nat),
    i ≤ StartIndex → producerLoop StartIndex pws i = pws.drop (StartIndex - i) := by
  intro pws
  induction pws with
  | nil => intro i _; simp [producerLoop]
  | cons pw pws ih =>
    intro i hi
    unfold producerLoop
    by_cases hlt : i < StartIndex
    · rw [if_pos hlt, ih (i + 1) hlt]
      have : StartIndex - i = (StartIndex - (i + 1)) + 1 := by omega
      rw [this, List.drop_succ_cons]
    · have h0 : StartIndex - i = 0 := by omega
      rw [if_neg hlt, ih i hi, h0]
      simp

/-! ## The wordlist iterator -/

theorem Compact_cons_eq_destutter' : ∀ (l : List GoString) (a : GoString),
    Compact (a :: l) = List.destutter' (· ≠ ·) a l := by
  intro l
  induction l with
  | nil => intro a; simp [Compact]
  | cons h t ih =>
    intro a
    unfold Compact
    by_cases hah : a = h
    · subst hah
      simp [List.destutter', ih]
    · simp [List.destutter', hah, ih]

theorem Compact_eq_destutter (l : List GoString) : Compact l = l.destutter (· ≠ ·) := by
  cases l with
  | nil => simp [Compact]
  | cons a l => exact Compact_cons_eq_destutter' l a

theorem lineIsWord_iff (TrimSpace : GoString → GoString) (line : GoString) :
    lineIsWord TrimSpace line = true ↔ TrimSpace line ≠ [] := by
  simp [lineIsWord]

theorem countWordsInFile_eq (TrimSpace : GoString → GoString) :
    ∀ (lines : List GoString) (out : Nat),
      countWordsInFile TrimSpace lines out
        = out + (lines.filter (fun line => TrimSpace line ≠ [])).length := by
  intro lines
  induction lines with
  | nil => intro out; simp [countWordsInFile]
  | cons line lines ih =>
    intro out
    unfold countWordsInFile
    by_cases hw : TrimSpace line = []
    · simp [lineIsWord, hw, ih]
    · simp [lineIsWord, hw, ih]
      omega

theorem take_min_eight (word : GoString) :
    word.take (if word.length > 8 then 8 else word.length) = word.take 8 := by
  split
  · rfl
  · rw [List.take_of_length_le (le_refl _), List.take_of_length_le (by omega)]

theorem take_succ_set_str (l : List GoString) :
    ∀ (i : Nat) (t : GoString), i < l.length → (l.set i t).take (i + 1) = l.take i ++ [t] := by
  induction l with
  | nil => intro i t hi; simp at hi
  | cons a l ih =>
    intro i t hi
    cases i with
    | zero => simp
    | succ i => simp [ih i t (by simpa using hi)]

theorem drop_succ_set_str (l : List GoString) :
    ∀ (i : Nat) (t : GoString), (l.set i t).drop (i + 1) = l.drop (i + 1) := by
  induction l with
  | nil => intro i t; simp
  | cons a l ih =>
    intro i t
    cases i with
    | zero => simp
    | succ i => simp [ih i t]

/-- The filling loop writes the words at the indices from `i` on. -/
theorem fillWordStore_eq (TrimSpace : GoString → GoString) :
    ∀ (lines : List GoString) (i : Nat) (wordStore : List GoString),
      i + ((lines.filter (fun line => TrimSpace line ≠ [])).map (List.take 8)).length
        ≤ wordStore.length →
      fillWordStore TrimSpace lines i wordStore
        = some (wordStore.take i
            ++ (lines.filter (fun line => TrimSpace line ≠ [])).map (List.take 8)
            ++ wordStore.drop
                (i + ((lines.filter (fun line => TrimSpace line ≠ [])).map (List.take 8)).length)) := by
  intro lines
  induction lines with
  | nil => intro i wordStore _; simp [fillWordStore]
  | cons line lines ih =>
    intro i wordStore hle
    unfold fillWordStore
    by_cases hw : TrimSpace line = []
    · simp only [lineIsWord, hw, bne_self_eq_false, Bool.not_false, if_true]
      have hf : (line :: lines).filter (fun line => TrimSpace line ≠ [])
          = lines.filter (fun line => TrimSpace line ≠ []) := by
        simp [List.filter_cons, hw]
      rw [hf] at hle ⊢
      exact ih i wordStore hle
    · have hf : (line :: lines).filter (fun line => TrimSpace line ≠ [])
          = line :: lines.filter (fun line => TrimSpace line ≠ []) := by
        simp [List.filter_cons, hw]
      rw [hf] at hle ⊢
      simp only [List.map_cons, List.length_cons] at hle ⊢
      have hi : i < wordStore.length := by omega
      have hb : (!lineIsWord TrimSpace line) = false := by simp [lineIsWord, hw]
      simp only [hb, Bool.false_eq_true, if_false, hi, if_true, take_min_eight]
      rw [ih (i + 1) (wordStore.set i (line.take 8)) (by rw [List.length_set]; omega),
        take_succ_set_str wordStore i _ hi]
      have hd : (wordStore.set i (line.take 8)).drop
            (i + 1 + ((lines.filter (fun line => TrimSpace line ≠ [])).map (List.take 8)).length)
          = wordStore.drop
            (i + (((lines.filter (fun line => TrimSpace line ≠ [])).map (List.take 8)).length + 1)) := by
        rw [← List.drop_drop, drop_succ_set_str, List.drop_drop]
        congr 1
        omega
      rw [hd]
      simp

/-- The first traversal loads the words and compacts them. -/
theorem IterPasswords_load (TrimSpace : GoString → GoString) (lines : List GoString)
    (iter : WordlistIter) (hstore : iter.wordStore = []) :
    iter.IterPasswords TrimSpace lines
      = some ({ iter with wordStore := wordSequence TrimSpace lines },
          wordSequence TrimSpace lines) := by
  unfold WordlistIter.IterPasswords
  simp only [hstore, List.length_nil, if_true]
  rw [countWordsInFile_eq, fillWordStore_eq TrimSpace lines 0 _ (by simp)]
  simp [wordSequence, Compact_eq_destutter]

theorem foldl_count (pws : List GoString) :
    ∀ c : Nat, pws.foldl (fun count _ => count + 1) c = c + pws.length := by
  induction pws with
  | nil => intro c; rfl
  | cons p pws ih => intro c; simp [ih]; omega

theorem IterPasswords_any (TrimSpace : GoString → GoString) (lines : List GoString)
    (iter : WordlistIter)
    (hstore : iter.wordStore = [] ∨ iter.wordStore = wordSequence TrimSpace lines) :
    iter.IterPasswords TrimSpace lines
      = some ({ iter with wordStore := wordSequence TrimSpace lines },
          wordSequence TrimSpace lines) := by
  by_cases hnil : iter.wordStore = []
  · exact IterPasswords_load TrimSpace lines iter hnil
  · have hs : iter.wordStore = wordSequence TrimSpace lines := hstore.resolve_left hnil
    have hlen : ¬ iter.wordStore.length = 0 := fun h => hnil (List.length_eq_zero.mp h)
    unfold WordlistIter.IterPasswords
    rw [if_neg hlen, ← hs]

/-- C15: from the fresh iterator, and from every state a traversal or a count leaves
(wordStore empty or loaded, cachedPwCount zero or set), a traversal yields the lines that
are not blank, in file order, each cut to its first 8 bytes, with each run of consecutive
equal entries reduced to one, and leaves such a state again; GetPasswordCount returns the
length of that sequence. Every yielded candidate has at most 8 bytes, no two consecutive
candidates are equal, and duplicates that are not adjacent are kept. -/
theorem WordlistIter_traversals (TrimSpace : GoString → GoString) (lines : List GoString)
    (iter : WordlistIter)
    (hstore : iter.wordStore = [] ∨ iter.wordStore = wordSequence TrimSpace lines)
    (hcache : iter.cachedPwCount = 0
      ∨ iter.cachedPwCount = (wordSequence TrimSpace lines).length) :
    (∃ iter', iter.IterPasswords TrimSpace lines
        = some (iter', wordSequence TrimSpace lines) ∧
      iter'.wordStore = wordSequence TrimSpace lines ∧
      iter'.cachedPwCount = iter.cachedPwCount) ∧
    (∃ iter', iter.GetPasswordCount TrimSpace lines
        = some (iter', (wordSequence TrimSpace lines).length) ∧
      (iter'.wordStore = [] ∨ iter'.wordStore = wordSequence TrimSpace lines) ∧
      (iter'.cachedPwCount = 0
        ∨ iter'.cachedPwCount = (wordSequence TrimSpace lines).length)) ∧
    (∀ w ∈ wordSequence TrimSpace lines, w.length ≤ 8) ∧
    (wordSequence TrimSpace lines).Chain' (· ≠ ·) ∧
    wordSequence asciiTrimSpace
        [str "a", str "b", str "a", str "  ", str "a", str "abcdefghij"]
      = [str "a", str "b", str "a", str "abcdefgh"] := by
  refine ⟨⟨_, IterPasswords_any TrimSpace lines iter hstore, rfl, rfl⟩, ?_, ?_,
    List.destutter_is_chain' _ _, by decide⟩
  · by_cases hc : iter.cachedPwCount = 0
    · refine ⟨{ iter with wordStore := wordSequence TrimSpace lines,
                          cachedPwCount := (wordSequence TrimSpace lines).length }, ?_,
        Or.inr rfl, Or.inr rfl⟩
      unfold WordlistIter.GetPasswordCount
      rw [if_neg (by simpa using hc), IterPasswords_any TrimSpace lines iter hstore]
      simp [foldl_count]
    · refine ⟨iter, ?_, hstore, hcache⟩
      unfold WordlistIter.GetPasswordCount
      rw [if_pos hc, hcache.resolve_left hc]
  · intro w hw
    have hsub := (List.destutter_sublist (· ≠ ·)
      ((lines.filter (fun line => TrimSpace line ≠ [])).map (List.take 8))).subset hw
    obtain ⟨line, -, rfl⟩ := List.mem_map.mp hsub
    simp [List.length_take]

theorem WordlistIter_traversals_witness :
    ∃ iter', WordlistIter.IterPasswords asciiTrimSpace
        [str "admin", str "", str "admin", str "password1", str "admin"] ⟨0, []⟩
      = some (iter', [str "admin", str "password", str "admin"]) := by
  obtain ⟨iter', h, -, -⟩ := (WordlistIter_traversals asciiTrimSpace
    [str "admin", str "", str "admin", str "password1", str "admin"] ⟨0, []⟩
    (Or.inl rfl) (Or.inl rfl)).1
  have hw : wordSequence asciiTrimSpace
      [str "admin", str "", str "admin", str "password1", str "admin"]
      = [str "admin", str "password", str "admin"] := by decide
  exact ⟨iter', by rw [h, hw]⟩

theorem GetPasswordCount_fresh (TrimSpace : GoString → GoString) (lines : List GoString) :
    WordlistIter.GetPasswordCount TrimSpace lines ⟨0, []⟩
      = some (⟨(wordSequence TrimSpace lines).length, wordSequence TrimSpace lines⟩,
          (wordSequence TrimSpace lines).length) := by
  unfold WordlistIter.GetPasswordCount
  rw [if_neg (by simp), IterPasswords_any TrimSpace lines ⟨0, []⟩ (Or.inl rfl)]
  simp [foldl_count]

/-- In wordlist mode no start index makes `main` exit: it sends the word sequence without
its first `StartIndex` items, which is nothing when `StartIndex` exceeds the count. -/
theorem mainProducer_wordlist (TrimSpace : GoString → GoString) (WordlistPath : GoString)
    (lines : List GoString) (RawCharset : GoString) (parsedRange : Except Error (Int × Int))
    (StartIndex fuel : Nat) (hpath : WordlistPath ≠ []) :
    mainProducer TrimSpace (str "wordlist") WordlistPath lines RawCharset parsedRange
        StartIndex fuel
      = .sent ((wordSequence TrimSpace lines).drop StartIndex) := by
  unfold mainProducer modeSwitch
  simp only [if_true, hpath, if_false]
  rw [GetPasswordCount_fresh]
  simp only
  rw [IterPasswords_any TrimSpace lines _ (Or.inr rfl)]
  simp only
  rw [producerLoop_eq StartIndex _ 0 (Nat.zero_le _)]
  rfl

/-- In raw mode, with a charset and a range that pass the checks, a start index above the
count makes `main` exit with code 1; otherwise what is sent is what the iterator yields
without its first `StartIndex` items. -/
theorem mainProducer_raw (TrimSpace : GoString → GoString) (WordlistPath : GoString)
    (lines : List GoString) (RawCharset : GoString) (lo hi : Nat) (StartIndex fuel : Nat)
    (hne : RawCharset ≠ []) (hlo : 0 < lo) (hhi : 0 < hi) :
    mainProducer TrimSpace (str "raw") WordlistPath lines RawCharset
        (.ok ((lo : Int), (hi : Int))) StartIndex fuel
      = if StartIndex > RawIter.GetPasswordCount RawCharset lo hi then .exit 1
        else
          match RawIter.IterPasswords RawCharset lo hi fuel with
          | .error e => .failed e
          | .ok pws => .sent (pws.drop StartIndex) := by
  have hmode : ¬ str "raw" = str "wordlist" := by decide
  have h1 : ¬ ((lo : Int) = 0 ∨ (hi : Int) = 0) := by omega
  have h2 : ¬ ((lo : Int) < 0 ∨ (hi : Int) < 0) := by omega
  unfold mainProducer modeSwitch
  simp only [hmode, if_false, if_true, hne, h1, h2, Int.toNat_ofNat]
  by_cases hs : StartIndex > RawIter.GetPasswordCount RawCharset lo hi
  · simp only [hs, if_true]
  · simp only [hs, if_false]
    cases RawIter.IterPasswords RawCharset lo hi fuel with
    | error e => rfl
    | ok pws =>
      simp only
      rw [producerLoop_eq StartIndex _ 0 (Nat.zero_le _)]
      rfl

/-- C16 fails on the code for the wordlist mode: with a wordlist of one word (count 1)
and start index 5 the mode switch assigns the iterator without any check, `main` does
not exit and sends nothing; the check of the start index exists in the raw branch only. -/
theorem mainProducer_wordlist_no_start_check :
    (WordlistIter.GetPasswordCount asciiTrimSpace [str "admin"] ⟨0, []⟩).map Prod.snd = some 1 ∧
    modeSwitch (str "wordlist") (str "words.txt") (str "abc") (.ok (1, 6)) 5
      = .run .wordlist ∧
    mainProducer asciiTrimSpace (str "wordlist") (str "words.txt") [str "admin"] (str "abc")
      (.ok (1, 6)) 5 0 = .sent [] ∧
    modeSwitch (str "raw") [] (str "abc") (.ok (1, 1)) 5 = .exit 1 := by
  refine ⟨by decide, by decide, by decide, by decide⟩

/-! ## The worker loop for one candidate -/

theorem attemptAt_succ (des : BlockCipher) (addr pw : GoString) (a : Nat)
    (pool : Option Pool) (dials : Nat → Except Error Conn) (closed : Nat → Bool)
    (first : Attempt)
    (h : workerAttempt des addr pool (dials 0) (closed 0) pw = some first) :
    attemptAt des addr pw (a + 1) pool dials closed
      = attemptAt des addr pw a first.proxyPool (fun i => dials (i + 1))
          (fun i => closed (i + 1)) := by
  simp [attemptAt, h]

theorem shift_dials {α : Type} (dials : Nat → α) (a0 : Nat) :
    (fun i => (fun t => dials (a0 + t)) (i + 1)) = (fun t => dials (a0 + 1 + t)) := by
  funext i
  show dials (a0 + (i + 1)) = dials (a0 + 1 + i)
  congr 1
  omega

/-- One turn of the loop whose attempt goes through `endOfAttempt`. -/
theorem candidateLoop_next (des : BlockCipher) (addr pw : GoString) (R : Int) (delay : Bool)
    (dials : Nat → Except Error Conn) (closed : Nat → Bool) (fuel a0 : Nat) (pool : Option Pool)
    (ne le : Option Error) (ev : List LoopEvent) (r : Attempt)
    (hR : ¬ ((a0 : Int) > R ∧ R ≠ -1))
    (hr : workerAttempt des addr pool (dials a0) (closed a0) pw = some r) (hflow : r.flow = .next) :
    ∃ le' ev', candidateLoop des addr R delay dials closed pw (fuel + 1) a0 pool ne le ev
        = candidateLoop des addr R delay dials closed pw fuel (a0 + 1) r.proxyPool r.nextErr le' ev'
      ∧ ev'.count .increment = ev.count .increment := by
  cases ne with
  | none =>
    refine ⟨le, ev ++ [.attempt r.events] ++ (if delay then [.delay] else []), ?_, ?_⟩
    · rw [candidateLoop]
      simp only [hR, if_false, hr, hflow]
    · cases delay <;> simp [List.count_append, List.count_cons]
  | some e =>
    refine ⟨some e, ev ++ [if le = none ∨ some e ≠ le then .printError e else .sleepSecond]
      ++ [.attempt r.events] ++ (if delay then [.delay] else []), ?_, ?_⟩
    · rw [candidateLoop]
      simp only [hR, if_false, hr, hflow]
    · cases delay <;> by_cases hc : le = none ∨ some e ≠ le <;>
        simp [List.count_append, List.count_cons, hc]

/-- One turn of the loop whose attempt ends in the `break`. -/
theorem candidateLoop_broke (des : BlockCipher) (addr pw : GoString) (R : Int) (delay : Bool)
    (dials : Nat → Except Error Conn) (closed : Nat → Bool) (fuel a0 : Nat) (pool : Option Pool)
    (ne le : Option Error) (ev : List LoopEvent) (r : Attempt)
    (hR : ¬ ((a0 : Int) > R ∧ R ≠ -1))
    (hr : workerAttempt des addr pool (dials a0) (closed a0) pw = some r) (hflow : r.flow = .broke) :
    ∃ ev', candidateLoop des addr R delay dials closed pw (fuel + 1) a0 pool ne le ev
        = some (.finished (a0 + 1) r.proxyPool ev')
      ∧ ev'.count .increment = ev.count .increment + 1 := by
  cases ne with
  | none =>
    refine ⟨ev ++ [.attempt r.events, .increment], ?_, ?_⟩
    · rw [candidateLoop]
      simp only [hR, if_false, hr, hflow]
    · simp [List.count_append, List.count_cons]
  | some e =>
    refine ⟨ev ++ [if le = none ∨ some e ≠ le then .printError e else .sleepSecond]
      ++ [.attempt r.events, .increment], ?_, ?_⟩
    · rw [candidateLoop]
      simp only [hR, if_false, hr, hflow]
    · by_cases hc : le = none ∨ some e ≠ le <;>
        simp [List.count_append, List.count_cons, hc]

/-- The loop until the attempt with index `b` from here, the first to end in the `break`. -/
theorem candidateLoop_until_break (des : BlockCipher) (addr pw : GoString) (R : Int)
    (delay : Bool) (dials : Nat → Except Error Conn) (closed : Nat → Bool) :
    ∀ (b a0 : Nat) (pool : Option Pool) (ne le : Option Error) (ev : List LoopEvent)
      (fuel : Nat),
      (R = -1 ∨ ((a0 + b : Nat) : Int) ≤ R) → b + 1 ≤ fuel →
      (∀ i, i < b → ∃ r, attemptAt des addr pw i pool (fun t => dials (a0 + t))
          (fun t => closed (a0 + t)) = some r
        ∧ r.flow = .next) →
      (∃ r, attemptAt des addr pw b pool (fun t => dials (a0 + t))
          (fun t => closed (a0 + t)) = some r
        ∧ r.flow = .broke) →
      ∃ pool' ev', candidateLoop des addr R delay dials closed pw fuel a0 pool ne le ev
          = some (.finished (a0 + b + 1) pool' ev')
        ∧ ev'.count .increment = ev.count .increment + 1 := by
  intro b
  induction b with
  | zero =>
    intro a0 pool ne le ev fuel hR hfuel _ hb
    obtain ⟨r, hr, hflow⟩ := hb
    obtain ⟨fuel', rfl⟩ : ∃ f, fuel = f + 1 := ⟨fuel - 1, by omega⟩
    have hR' : ¬ ((a0 : Int) > R ∧ R ≠ -1) := by
      rcases hR with h | h
      · simp [h]
      · intro hc; have := hc.1; simp at h; omega
    have hr' : workerAttempt des addr pool (dials a0) (closed a0) pw = some r := by
      simpa [attemptAt] using hr
    obtain ⟨ev', h, hc⟩ :=
      candidateLoop_broke des addr pw R delay dials closed fuel' a0 pool ne le ev r hR' hr' hflow
    exact ⟨_, ev', h, hc⟩
  | succ b ih =>
    intro a0 pool ne le ev fuel hR hfuel hnext hb
    obtain ⟨fuel', rfl⟩ : ∃ f, fuel = f + 1 := ⟨fuel - 1, by omega⟩
    have hR' : ¬ ((a0 : Int) > R ∧ R ≠ -1) := by
      rcases hR with h | h
      · simp [h]
      · intro hc; have := hc.1; push_cast at h; omega
    obtain ⟨r0, hr0, hflow0⟩ := hnext 0 (by omega)
    have hr0' : workerAttempt des addr pool (dials a0) (closed a0) pw = some r0 := by
      simpa [attemptAt] using hr0
    have hfirst : workerAttempt des addr pool ((fun t => dials (a0 + t)) 0)
        ((fun t => closed (a0 + t)) 0) pw = some r0 := by
      simpa using hr0'
    obtain ⟨le', ev', hstep, hcount⟩ :=
      candidateLoop_next des addr pw R delay dials closed fuel' a0 pool ne le ev r0 hR' hr0' hflow0
    have hR'' : R = -1 ∨ ((a0 + 1 + b : Nat) : Int) ≤ R := by
      rcases hR with h | h
      · exact Or.inl h
      · right; push_cast at h ⊢; omega
    obtain ⟨pool', ev'', hrun, hc⟩ := ih (a0 + 1) r0.proxyPool r0.nextErr le' ev' fuel' hR''
      (by omega)
      (by
        intro i hi
        have := hnext (i + 1) (by omega)
        rwa [attemptAt_succ des addr pw i pool _ _ r0 hfirst, shift_dials, shift_dials] at this)
      (by
        rwa [attemptAt_succ des addr pw b pool _ _ r0 hfirst, shift_dials, shift_dials] at hb)
    refine ⟨pool', ev'', ?_, by rw [hc, hcount]⟩
    rw [hstep, hrun]
    congr 2
    omega

/-- The loop when every attempt up to the retry limit ends in an error. -/
theorem candidateLoop_give_up (des : BlockCipher) (addr pw : GoString) (R : Nat)
    (delay : Bool) (dials : Nat → Except Error Conn) (closed : Nat → Bool) :
    ∀ (m a0 : Nat) (pool : Option Pool) (ne le : Option Error) (ev : List LoopEvent)
      (fuel : Nat),
      a0 + m = R + 1 → m + 1 ≤ fuel →
      (∀ i, i < m → ∃ r, attemptAt des addr pw i pool (fun t => dials (a0 + t))
          (fun t => closed (a0 + t)) = some r
        ∧ r.flow = .next) →
      ∃ pool' ev', candidateLoop des addr (R : Int) delay dials closed pw fuel a0 pool ne le ev
          = some (.finished (R + 1) pool' ev')
        ∧ ev'.count .increment = ev.count .increment + 1 := by
  intro m
  induction m with
  | zero =>
    intro a0 pool ne le ev fuel ha hfuel _
    obtain ⟨fuel', rfl⟩ : ∃ f, fuel = f + 1 := ⟨fuel - 1, by omega⟩
    have hgt : ((a0 : Int) > (R : Int) ∧ (R : Int) ≠ -1) := by
      constructor <;> omega
    refine ⟨pool, ev ++ [.increment], ?_, by simp [List.count_append]⟩
    have ha0 : a0 = R + 1 := by omega
    subst ha0
    simp only [candidateLoop]
    rw [if_pos hgt]
  | succ m ih =>
    intro a0 pool ne le ev fuel ha hfuel hnext
    obtain ⟨fuel', rfl⟩ : ∃ f, fuel = f + 1 := ⟨fuel - 1, by omega⟩
    have hR' : ¬ ((a0 : Int) > (R : Int) ∧ (R : Int) ≠ -1) := by
      intro hc; have := hc.1; omega
    obtain ⟨r0, hr0, hflow0⟩ := hnext 0 (by omega)
    have hr0' : workerAttempt des addr pool (dials a0) (closed a0) pw = some r0 := by
      simpa [attemptAt] using hr0
    have hfirst : workerAttempt des addr pool ((fun t => dials (a0 + t)) 0)
        ((fun t => closed (a0 + t)) 0) pw = some r0 := by
      simpa using hr0'
    obtain ⟨le', ev', hstep, hcount⟩ :=
      candidateLoop_next des addr pw R delay dials closed fuel' a0 pool ne le ev r0 hR' hr0' hflow0
    obtain ⟨pool', ev'', hrun, hc⟩ := ih (a0 + 1) r0.proxyPool r0.nextErr le' ev' fuel'
      (by omega) (by omega)
      (by
        intro i hi
        have := hnext (i + 1) (by omega)
        rwa [attemptAt_succ des addr pw i pool _ _ r0 hfirst, shift_dials, shift_dials] at this)
    exact ⟨pool', ev'', by rw [hstep, hrun], by rw [hc, hcount]⟩

/-- With unlimited retries the loop keeps going while every attempt ends in an error. -/
theorem candidateLoop_unlimited (des : BlockCipher) (addr pw : GoString)
    (delay : Bool) (dials : Nat → Except Error Conn) (closed : Nat → Bool) :
    ∀ (fuel a0 : Nat) (pool : Option Pool) (ne le : Option Error) (ev : List LoopEvent),
      (∀ i, ∃ r, attemptAt des addr pw i pool (fun t => dials (a0 + t))
          (fun t => closed (a0 + t)) = some r
        ∧ r.flow = .next) →
      ∃ ev', candidateLoop des addr (-1) delay dials closed pw fuel a0 pool ne le ev
          = some (.outOfFuel (a0 + fuel) ev')
        ∧ ev'.count .increment = ev.count .increment := by
  intro fuel
  induction fuel with
  | zero =>
    intro a0 pool ne le ev _
    exact ⟨ev, by simp [candidateLoop], rfl⟩
  | succ fuel ih =>
    intro a0 pool ne le ev hnext
    have hR' : ¬ ((a0 : Int) > (-1 : Int) ∧ (-1 : Int) ≠ -1) := by simp
    obtain ⟨r0, hr0, hflow0⟩ := hnext 0
    have hr0' : workerAttempt des addr pool (dials a0) (closed a0) pw = some r0 := by
      simpa [attemptAt] using hr0
    have hfirst : workerAttempt des addr pool ((fun t => dials (a0 + t)) 0)
        ((fun t => closed (a0 + t)) 0) pw = some r0 := by
      simpa using hr0'
    obtain ⟨le', ev', hstep, hcount⟩ :=
      candidateLoop_next des addr pw (-1) delay dials closed fuel a0 pool ne le ev r0 hR' hr0' hflow0
    obtain ⟨ev'', hrun, hc⟩ := ih (a0 + 1) r0.proxyPool r0.nextErr le' ev'
      (by
        intro i
        have := hnext (i + 1)
        rwa [attemptAt_succ des addr pw i pool _ _ r0 hfirst, shift_dials, shift_dials] at this)
    refine ⟨ev'', ?_, by rw [hc, hcount]⟩
    rw [hstep, hrun]
    congr 2
    omega

theorem zero_add_dials {α : Type} (dials : Nat → α) :
    (fun t => dials (0 + t)) = dials := by
  funext t
  rw [Nat.zero_add]

/-- The loop away from the panic of line 285, for a retry limit R >= 0 and a candidate
whose attempts neither panic nor end the process: if the j-th attempt (1-based) is the
first that ends in the `break` (the Basic submission went through and the result is a
failure) and all attempts before it end in an error, the loop ends after exactly
min(j, R + 1) attempts; if each of the first R + 1 attempts ends in an error it ends
after exactly R + 1 attempts; both times progress is incremented once and the loop is
left. With R = -1 and every attempt ending in an error the loop is still running after
any number of attempts, and progress is not incremented. -/
theorem candidateLoop_attempts (des : BlockCipher) (addr pw : GoString) (delay : Bool)
    (dials : Nat → Except Error Conn) (closed : Nat → Bool) (proxyPool : Option Pool)
    (R : Nat) :
    (∀ j fuel, 1 ≤ j → R + 2 ≤ fuel →
      (∀ a, a + 1 < j →
        ∃ r, attemptAt des addr pw a proxyPool dials closed = some r ∧ r.flow = .next) →
      (∃ r, attemptAt des addr pw (j - 1) proxyPool dials closed = some r
        ∧ r.flow = .broke) →
      ∃ pool' events,
        candidateLoop des addr (R : Int) delay dials closed pw fuel 0 proxyPool none none []
          = some (.finished (min j (R + 1)) pool' events) ∧
        events.count .increment = 1) ∧
    (∀ fuel, R + 2 ≤ fuel →
      (∀ a, a ≤ R →
        ∃ r, attemptAt des addr pw a proxyPool dials closed = some r ∧ r.flow = .next) →
      ∃ pool' events,
        candidateLoop des addr (R : Int) delay dials closed pw fuel 0 proxyPool none none []
          = some (.finished (R + 1) pool' events) ∧
        events.count .increment = 1) ∧
    ((∀ a, ∃ r, attemptAt des addr pw a proxyPool dials closed = some r ∧ r.flow = .next) →
      ∀ fuel, ∃ events,
        candidateLoop des addr (-1) delay dials closed pw fuel 0 proxyPool none none []
          = some (.outOfFuel fuel events) ∧
        events.count .increment = 0) := by
  refine ⟨?_, ?_, ?_⟩
  · intro j fuel hj hfuel hnext hbreak
    by_cases hle : j ≤ R + 1
    · obtain ⟨pool', ev', h, hc⟩ := candidateLoop_until_break des addr pw (R : Int) delay dials closed
        (j - 1) 0 proxyPool none none [] fuel (Or.inr (by push_cast; omega)) (by omega)
        (by
          intro i hi
          rw [zero_add_dials, zero_add_dials]
          exact hnext i (by omega))
        (by rw [zero_add_dials, zero_add_dials]; exact hbreak)
      refine ⟨pool', ev', ?_, by simpa using hc⟩
      rw [h, Nat.min_eq_left hle]
      congr 2
      omega
    · obtain ⟨pool', ev', h, hc⟩ := candidateLoop_give_up des addr pw R delay dials closed
        (R + 1) 0 proxyPool none none [] fuel (by omega) (by omega)
        (by
          intro i hi
          rw [zero_add_dials, zero_add_dials]
          exact hnext i (by omega))
      refine ⟨pool', ev', ?_, by simpa using hc⟩
      rw [h, Nat.min_eq_right (by omega)]
  · intro fuel hfuel hnext
    obtain ⟨pool', ev', h, hc⟩ := candidateLoop_give_up des addr pw R delay dials closed
      (R + 1) 0 proxyPool none none [] fuel (by omega) (by omega)
      (by
        intro i hi
        rw [zero_add_dials, zero_add_dials]
        exact hnext i (by omega))
    exact ⟨pool', ev', h, by simpa using hc⟩
  · intro hnext fuel
    obtain ⟨ev', h, hc⟩ := candidateLoop_unlimited des addr pw delay dials closed fuel 0
      proxyPool none none [] (by
        intro i
        rw [zero_add_dials, zero_add_dials]
        exact hnext i)
    refine ⟨ev', ?_, by simpa using hc⟩
    rw [h, Nat.zero_add]

theorem exists_of_flow (x : Option Attempt) (f : Flow)
    (h : x.map (fun r => r.flow) = some f) : ∃ r, x = some r ∧ r.flow = f := by
  cases x with
  | none => simp at h
  | some r => exact ⟨r, rfl, by simpa using h⟩

set_option maxRecDepth 100000 in
/-- Two runs of the loop with retry limit 1: a honeypot makes the worker give up after
two attempts; a server that turns the password down, while `newFailedMsgChan` is open,
is left after the first attempt. -/
theorem candidateLoop_attempts_examples :
    (∃ pool' events,
      candidateLoop sampleDes (str "10.0.0.1:5900") 1 false honeypotDials (fun _ => false)
          (str "secret") 3 0 none none none []
        = some (.finished 2 pool' events) ∧
      events.count .increment = 1) ∧
    (∃ pool' events,
      candidateLoop sampleDes (str "10.0.0.1:5900") 1 false rejectingDials (fun _ => false)
          (str "secret") 3 0 none none none []
        = some (.finished (min 1 (1 + 1)) pool' events) ∧
      events.count .increment = 1) := by
  constructor
  · exact (candidateLoop_attempts sampleDes (str "10.0.0.1:5900") (str "secret") false
      honeypotDials (fun _ => false) none 1).2.1 3 (by decide) (by
        intro a ha
        apply exists_of_flow
        interval_cases a
        · rfl
        · rfl)
  · exact (candidateLoop_attempts sampleDes (str "10.0.0.1:5900") (str "secret") false
      rejectingDials (fun _ => false) none 1).1 1 3 (by decide) (by decide)
      (by intro a ha; omega) (by
        apply exists_of_flow
        rfl)

set_option maxRecDepth 100000 in
/-- C17 fails on the code: `main` closes `newFailedMsgChan` (line 323) before it waits
for the workers (line 324). A worker that tries one of the last candidates after that,
against a server that turns the password down with the reason "Authentication failed",
gets through the Basic submission and then panics in the send of line 285: the process
ends, progress is not incremented and no next candidate is tried. The same attempt
before the channel is closed ends the loop after one attempt with one increment. -/
theorem candidateLoop_send_on_closed_channel :
    candidateLoop sampleDes (str "10.0.0.1:5900") 1 false rejectingDials (fun _ => true)
        (str "secret") 3 0 none none none [] = none ∧
    candidateLoop sampleDes (str "10.0.0.1:5900") 1 false rejectingDials (fun _ => false)
        (str "secret") 3 0 none none none []
      = some (.finished 1 none
          [.attempt [.failedMsg (str "Authentication failed")], .increment]) ∧
    (SubmitAuthBasic sampleDes
        (sampleAfterHandshake (sampleConn [.data sampleChallenge,
          .data ([0, 0, 0, 1, 0, 0, 0, 21] ++ str "Authentication failed")]))
        (str "secret")).map (fun out => (out.2, out.1.SecurityResult))
      = some (none, ⟨false, str "Authentication failed"⟩) := by
  refine ⟨by rfl, by rfl, by rfl⟩

end Vince
